import Mathlib

/-!
Verification of the `atomic-ref` repository.

Part 1 models the phased-CAS access controller (`src/access/cas.rs`) as an
interleaved transition system: every atomic instruction of the Rust code
(`fetch_update`, `load`, `store`, `swap`, `fetch_add`, `fetch_sub`) is one
step of one thread, so a reachable state of the model corresponds to a
globally consistent moment of the program.  Counters are modelled as
unbounded naturals; the 16/32-bit packed fields of `read_flags` are kept as
separate fields because every `fetch_update` closure in the source
reads/writes those fields through disjoint masks.  Truncated natural
subtraction coincides with the source's wrapping subtraction at every place
it is used, because the inductive invariant below shows the decremented
field is positive there.  Fields whose names start with `g` are ghost
history variables: no transition guard reads them, they only record
phase-local history (phase size, admissions, drops, installed read slots).

Part 2 models the baseline `AtomicControlBlock` bit manipulation of
`src/atomic.rs` exactly on the packed 64-bit word.

Part 3 models the generation heap discipline of the `Atomic`/`ValueRef`
pair in `src/atomic.rs`, counting every `alloc`/`dealloc` the code performs.

Part 4 models the multi-cell transaction from the specification (its
implementation is not part of the sources, only its tests).
-/

namespace ListCnt

theorem countP_set_add {α : Type} (P : α → Bool) (l : List α) (i : Nat) (v : α)
    (h : i < l.length) :
    (l.set i v).countP P + (if P (l.get ⟨i, h⟩) then 1 else 0)
      = l.countP P + (if P v then 1 else 0) := by
  induction l generalizing i with
  | nil => simp at h
  | cons a as ih =>
    cases i with
    | zero =>
      simp only [List.set, List.countP_cons, List.get]
      omega
    | succ n =>
      simp only [List.set, List.countP_cons, List.get]
      have hn : n < as.length := by simpa using h
      have := ih n hn
      omega

theorem countP_set_same {α : Type} (P : α → Bool) (l : List α) (i : Nat) (v : α)
    (h : i < l.length) (hv : P (l.get ⟨i, h⟩) = P v) :
    (l.set i v).countP P = l.countP P := by
  have := countP_set_add P l i v h
  rw [hv] at this
  omega

theorem countP_set_incr {α : Type} (P : α → Bool) (l : List α) (i : Nat) (v : α)
    (h : i < l.length) (h1 : P (l.get ⟨i, h⟩) = false) (h2 : P v = true) :
    (l.set i v).countP P = l.countP P + 1 := by
  have := countP_set_add P l i v h
  rw [h1, h2] at this
  simp at this
  omega

theorem countP_set_decr {α : Type} (P : α → Bool) (l : List α) (i : Nat) (v : α)
    (h : i < l.length) (h1 : P (l.get ⟨i, h⟩) = true) (h2 : P v = false) :
    l.countP P = (l.set i v).countP P + 1 := by
  have := countP_set_add P l i v h
  rw [h1, h2] at this
  simp at this
  omega

theorem countP_pos_of_get {α : Type} (P : α → Bool) (l : List α) (i : Nat)
    (h : i < l.length) (hp : P (l.get ⟨i, h⟩) = true) :
    1 ≤ l.countP P := by
  have hm : l.get ⟨i, h⟩ ∈ l := l.get_mem i h
  have : 0 < l.countP P := List.countP_pos_iff.mpr ⟨_, hm, hp⟩
  omega

theorem countP_mono {α : Type} (P Q : α → Bool) (l : List α)
    (h : ∀ a, P a = true → Q a = true) : l.countP P ≤ l.countP Q := by
  induction l with
  | nil => simp
  | cons a as ih =>
    simp only [List.countP_cons]
    by_cases hpa : P a = true
    · rw [hpa, h a hpa]
      omega
    · have : P a = false := by
        cases hP : P a
        · rfl
        · exact absurd hP hpa
      rw [this]
      cases Q a <;> simp <;> omega

theorem getD_lt {α : Type} (l : List α) (d : α) (i : Nat) (x : α)
    (h : l.getD i d = x) (hx : x ≠ d) : i < l.length := by
  by_contra hge
  push_neg at hge
  rw [List.getD_eq_default _ _ hge] at h
  exact hx h.symm

theorem getD_eq_get {α : Type} (l : List α) (d : α) (i : Nat) (h : i < l.length) :
    l.getD i d = l.get ⟨i, h⟩ := by
  simp [List.getD_eq_getElem?_getD, List.getElem?_eq_getElem h]

theorem getD_set_ne {α : Type} (l : List α) (i j : Nat) (v : α) (d : α)
    (h : i ≠ j) : (l.set i v).getD j d = l.getD j d := by
  induction l generalizing i j with
  | nil => simp
  | cons a as ih =>
    cases i with
    | zero =>
      cases j with
      | zero => exact absurd rfl h
      | succ m => simp [List.set, List.getD]
    | succ n =>
      cases j with
      | zero => simp [List.set, List.getD]
      | succ m =>
        simp only [List.set, List.getD_cons_succ]
        exact ih n m (by omega)

theorem getD_set_self {α : Type} (l : List α) (i : Nat) (v : α) (d : α)
    (h : i < l.length) : (l.set i v).getD i d = v := by
  induction l generalizing i with
  | nil => simp at h
  | cons a as ih =>
    cases i with
    | zero => simp [List.set, List.getD]
    | succ n =>
      simp only [List.set, List.getD_cons_succ]
      exact ih n (by simpa using h)

theorem countP_eq_zero_of_all {α : Type} (P : α → Bool) (l : List α)
    (h : ∀ a ∈ l, P a = false) : l.countP P = 0 := by
  rw [List.countP_eq_zero]
  intro a ha
  simp [h a ha]

theorem countP_two {α : Type} (P : α → Bool) (l : List α) (i j : Nat)
    (hi : i < l.length) (hj : j < l.length) (hij : i ≠ j)
    (hPi : P (l.get ⟨i, hi⟩) = true) (hPj : P (l.get ⟨j, hj⟩) = true) :
    2 ≤ l.countP P := by
  induction l generalizing i j with
  | nil => simp at hi
  | cons a as ih =>
    cases i with
    | zero =>
      cases j with
      | zero => exact absurd rfl hij
      | succ m =>
        have hm : m < as.length := by simpa using hj
        have h1 : 1 ≤ as.countP P := countP_pos_of_get P as m hm (by exact hPj)
        simp only [List.countP_cons]
        simp only [List.get] at hPi
        rw [hPi, if_pos rfl]
        omega
    | succ n =>
      cases j with
      | zero =>
        have hn : n < as.length := by simpa using hi
        have h1 : 1 ≤ as.countP P := countP_pos_of_get P as n hn (by exact hPi)
        simp only [List.countP_cons]
        simp only [List.get] at hPj
        rw [hPj, if_pos rfl]
        omega
      | succ m =>
        have hn : n < as.length := by simpa using hi
        have hm : m < as.length := by simpa using hj
        have := ih n m hn hm (by omega) hPi hPj
        simp only [List.countP_cons]
        omega

theorem set_set_same {α : Type} (l : List α) (i : Nat) (a b : α) :
    (l.set i a).set i b = l.set i b := by
  induction l generalizing i with
  | nil => rfl
  | cons x xs ih =>
    cases i with
    | zero => rfl
    | succ n =>
      simp only [List.set]
      rw [ih]

theorem set_getD_cancel {α : Type} (l : List α) (i : Nat) (d : α) :
    l.set i (l.getD i d) = l := by
  induction l generalizing i with
  | nil => rfl
  | cons x xs ih =>
    cases i with
    | zero => rfl
    | succ n =>
      simp only [List.set, List.getD_cons_succ]
      rw [ih]

theorem getD_append_left {α : Type} (l l2 : List α) (d : α) (n : Nat)
    (h : n < l.length) : (l ++ l2).getD n d = l.getD n d := by
  induction l generalizing n with
  | nil => simp at h
  | cons a as ih =>
    cases n with
    | zero => rfl
    | succ m =>
      simp only [List.cons_append, List.getD_cons_succ]
      exact ih m (by simpa using h)

theorem getD_set_eq_ite {α : Type} (l : List α) (t : Nat) (ht : t < l.length)
    (v d : α) (i : Nat) :
    (l.set t v).getD i d = if i = t then v else l.getD i d := by
  by_cases hit : i = t
  · rw [if_pos hit, hit]
    exact getD_set_self l t v d ht
  · rw [if_neg hit]
    exact getD_set_ne l t i v d (fun he => hit he.symm)

theorem all_of_countP_zero {α : Type} (P : α → Bool) (l : List α) (d : α)
    (hd : P d = false) (h : l.countP P = 0) : ∀ i, P (l.getD i d) = false := by
  intro i
  by_cases hi : i < l.length
  · rw [getD_eq_get _ _ _ hi]
    have := List.countP_eq_zero.mp h _ (l.get_mem i hi)
    simpa using this
  · rw [List.getD_eq_default _ _ (by omega)]
    exact hd

theorem countP_set_le {α : Type} (P : α → Bool) (l : List α) (i : Nat) (v : α)
    (h : i < l.length) (h2 : P v = false) :
    (l.set i v).countP P ≤ l.countP P := by
  have := countP_set_add P l i v h
  rw [h2] at this
  simp at this
  omega

theorem countP_zero_of_getD {α : Type} (P : α → Bool) (l : List α) (d : α)
    (h : ∀ i, P (l.getD i d) = false) : l.countP P = 0 := by
  apply countP_eq_zero_of_all
  intro a ha
  obtain ⟨n, hn⟩ := List.mem_iff_get.mp ha
  have h2 := h n.1
  rw [getD_eq_get l d n.1 n.2] at h2
  have h3 : P (l.get n) = false := h2
  rw [hn] at h3
  exact h3

theorem exists_getD_of_countP_pos {α : Type} (P : α → Bool) (l : List α) (d : α)
    (h : 1 ≤ l.countP P) : ∃ i, i < l.length ∧ P (l.getD i d) = true := by
  have hpos : 0 < l.countP P := by omega
  obtain ⟨a, ha, hPa⟩ := List.countP_pos_iff.mp hpos
  obtain ⟨n, hn⟩ := List.mem_iff_get.mp ha
  refine ⟨n.1, n.2, ?_⟩
  rw [getD_eq_get l d n.1 n.2]
  have h3 : l.get ⟨n.1, n.2⟩ = a := by
    rw [← hn]
  rw [h3]
  exact hPa

end ListCnt

namespace Cas

/-- Program counters of the threads using `CASAccessControl`.  A reader
thread executes `CASAccessControl::read` (cas.rs 282-304) followed by
`CASReadGuard::drop` (cas.rs 26-36); a writer thread executes
`CASAccessControl::write` (cas.rs 216-280) followed by
`CASWriteGuard::drop` (cas.rs 48-61).  Each constructor is the point just
before one atomic instruction of the source. -/
inductive TS : Type
  | rStart                             -- before inc_pending_readers (cas.rs 283)
  | rLoad                              -- before is_writing.load in the read loop (cas.rs 286)
  | rTrySlot                           -- before try_reserve_read_slot (cas.rs 287, 144-164)
  | rInit                              -- before initialize_read (cas.rs 291, 174-184)
  | rCheck                             -- before the re-check is_writing.load (cas.rs 294)
  | rReset                             -- before try_reserve_read_slot_or_reset (cas.rs 294, 186-208)
  | rHold                              -- holds the read permit; before CASReadGuard::drop (cas.rs 26-36)
  | rDone
  | wStart                             -- before inc_pending_writers (cas.rs 217)
  | wLoad                              -- before is_writing.load in the write loop (cas.rs 225)
  | wTrySlot                           -- before try_reserve_write_slot (cas.rs 227/241, 136-142)
  | wSwap                              -- before is_writing.swap(true) (cas.rs 232)
  | wSnapPW                            -- initiator: before pending_writers.load (cas.rs 234)
  | wStoreSlots (sz : Nat)             -- initiator: before init_write_slot(sz - 1) (cas.rs 237)
  | wStoreNext (sz : Nat)              -- initiator: before next_writer_id.store(sz) (cas.rs 239)
  | wDec (idx : Nat) (ini : Bool)      -- before dec_pending_writers (cas.rs 250)
  | wSnapPR (idx : Nat)                -- initiator: before read_flags.load of pending readers (cas.rs 255)
  | wInstall (idx : Nat) (pr : Nat)    -- initiator: before initialize_read_slots(pr) (cas.rs 258)
  | wDrain (idx : Nat)                 -- initiator: in the drain loop load (cas.rs 261-272)
  | wWaitTurn (idx : Nat)              -- follower: in the next_writer_id wait loop (cas.rs 274-276)
  | wHold (idx : Nat) (ini : Bool)     -- holds the write permit; before the fetch_sub of drop (cas.rs 52)
  | wClear                             -- drop observed 1: before is_writing.store(false) (cas.rs 57)
  | wDone
  deriving DecidableEq, Repr

/-- Global state: the shared atomics of `CASAccessControl` (cas.rs 78-93)
in field form, the fixed configuration `max_write_line`, one thread-state
per thread, and ghost history variables (`g`-prefixed; never read by a
transition guard). -/
structure St : Type where
  ths : List TS
  activeReaders : Nat                  -- read_flags bits 0-15
  pendingReaders : Nat                 -- read_flags bits 16-31
  readSlots : Nat                      -- read_flags bits 32-63
  writeSlots : Nat                     -- write_slots
  nextWriterId : Nat                   -- next_writer_id
  pendingWriters : Nat                 -- pending_writers
  isWriting : Bool                     -- is_writing
  maxWriteLine : Nat                   -- max_write_line (configuration, ≥ 1)
  gPS : Nat                            -- ghost: size of the current phase
  gAdm : Nat                           -- ghost: writers admitted into the current phase
  gDropped : Nat                       -- ghost: write permits dropped in the current phase
  gInstalled : Nat                     -- ghost: read slots installed by the current initiator
  gSlotAdm : Nat                       -- ghost: readers admitted via read slots this phase
  gSetup : Bool                        -- ghost: next_writer_id store of the phase happened
  gDrained : Bool                      -- ghost: the initiator's drain loop exited
  deriving DecidableEq, Repr

/-- One atomic step of thread `t`.  Threads past their program, waiting
threads whose condition is false, and out-of-range indices stutter. -/
def applyStep (s : St) (t : Nat) : St :=
  match s.ths.getD t TS.rDone with
  | TS.rStart =>
      -- inc_pending_readers (cas.rs 121-130)
      { s with ths := s.ths.set t TS.rLoad, pendingReaders := s.pendingReaders + 1 }
  | TS.rLoad =>
      -- read loop head: is_writing.load (cas.rs 286)
      if s.isWriting then { s with ths := s.ths.set t TS.rTrySlot }
      else { s with ths := s.ths.set t TS.rInit }
  | TS.rTrySlot =>
      -- try_reserve_read_slot (cas.rs 144-164): one CAS that fails when no
      -- slot is free and otherwise consumes a slot, moves the reader from
      -- pending to active
      if s.readSlots = 0 then { s with ths := s.ths.set t TS.rLoad }
      else
        { s with ths := s.ths.set t TS.rHold,
                 readSlots := s.readSlots - 1,
                 pendingReaders := s.pendingReaders - 1,
                 activeReaders := s.activeReaders + 1,
                 gSlotAdm := s.gSlotAdm + 1 }
  | TS.rInit =>
      -- initialize_read (cas.rs 174-184): pending-- , active++ in one CAS
      { s with ths := s.ths.set t TS.rCheck,
               pendingReaders := s.pendingReaders - 1,
               activeReaders := s.activeReaders + 1 }
  | TS.rCheck =>
      -- stale-read re-check of is_writing (cas.rs 294, short-circuit ||)
      if s.isWriting then { s with ths := s.ths.set t TS.rReset }
      else { s with ths := s.ths.set t TS.rHold }
  | TS.rReset =>
      -- try_reserve_read_slot_or_reset (cas.rs 186-208): if no slot is
      -- free the initialize_read step is reversed, otherwise a slot is
      -- consumed (the reader is already active)
      if s.readSlots = 0 then
        { s with ths := s.ths.set t TS.rLoad,
                 pendingReaders := s.pendingReaders + 1,
                 activeReaders := s.activeReaders - 1 }
      else
        { s with ths := s.ths.set t TS.rHold,
                 readSlots := s.readSlots - 1,
                 gSlotAdm := s.gSlotAdm + 1 }
  | TS.rHold =>
      -- CASReadGuard::drop (cas.rs 26-36): active--
      { s with ths := s.ths.set t TS.rDone, activeReaders := s.activeReaders - 1 }
  | TS.rDone => s
  | TS.wStart =>
      -- inc_pending_writers (cas.rs 117-119)
      { s with ths := s.ths.set t TS.wLoad, pendingWriters := s.pendingWriters + 1 }
  | TS.wLoad =>
      -- write loop head: is_writing.load (cas.rs 225)
      if s.isWriting then { s with ths := s.ths.set t TS.wTrySlot }
      else { s with ths := s.ths.set t TS.wSwap }
  | TS.wTrySlot =>
      -- try_reserve_write_slot (cas.rs 136-142): fetch_update returning
      -- the previous value, which becomes the follower's slot index
      if s.writeSlots = 0 then { s with ths := s.ths.set t TS.wLoad }
      else
        { s with ths := s.ths.set t (TS.wDec s.writeSlots false),
                 writeSlots := s.writeSlots - 1,
                 gAdm := s.gAdm + 1 }
  | TS.wSwap =>
      -- is_writing.swap(true) (cas.rs 232); the winner is the initiator.
      -- Ghost phase history is reset here.
      if s.isWriting then { s with ths := s.ths.set t TS.wTrySlot }
      else
        { s with ths := s.ths.set t TS.wSnapPW, isWriting := true,
                 gPS := 0, gAdm := 0, gDropped := 0, gInstalled := 0,
                 gSlotAdm := 0, gSetup := false, gDrained := false }
  | TS.wSnapPW =>
      -- pending_writers.load and slots_size = pending.min(max_write_line)
      -- (cas.rs 234-235)
      { s with ths := s.ths.set t (TS.wStoreSlots (min s.pendingWriters s.maxWriteLine)) }
  | TS.wStoreSlots sz =>
      -- init_write_slot(slots_size - 1) (cas.rs 237, 210-212)
      { s with ths := s.ths.set t (TS.wStoreNext sz), writeSlots := sz - 1,
               gPS := sz, gAdm := 1 }
  | TS.wStoreNext sz =>
      -- next_writer_id.store(slot_idx) with slot_idx = slots_size (cas.rs 238-239)
      { s with ths := s.ths.set t (TS.wDec sz true), nextWriterId := sz,
               gSetup := true }
  | TS.wDec idx ini =>
      -- dec_pending_writers (cas.rs 250, 132-134)
      { s with ths := s.ths.set t (if ini then TS.wSnapPR idx else TS.wWaitTurn idx),
               pendingWriters := s.pendingWriters - 1 }
  | TS.wSnapPR idx =>
      -- read_flags.load; pending_readers snapshot (cas.rs 255-257)
      if s.pendingReaders = 0 then { s with ths := s.ths.set t (TS.wDrain idx) }
      else { s with ths := s.ths.set t (TS.wInstall idx s.pendingReaders) }
  | TS.wInstall idx pr =>
      -- initialize_read_slots (cas.rs 258, 166-172): read_flags |= pr << 32,
      -- field-wise an OR into the read-slot field
      { s with ths := s.ths.set t (TS.wDrain idx),
               readSlots := s.readSlots ||| pr, gInstalled := pr }
  | TS.wDrain idx =>
      -- drain loop: one read_flags.load observing both fields (cas.rs 261-272)
      if s.activeReaders = 0 ∧ s.readSlots = 0 then
        { s with ths := s.ths.set t (TS.wHold idx true), gDrained := true }
      else s
  | TS.wWaitTurn idx =>
      -- follower wait: next_writer_id.load (cas.rs 274-276)
      if s.nextWriterId = idx then { s with ths := s.ths.set t (TS.wHold idx false) }
      else s
  | TS.wHold _idx _ini =>
      -- CASWriteGuard::drop (cas.rs 48-61): fetch_sub(1) returning the old
      -- value; observing 1 leads to the is_writing.store(false)
      { s with ths := s.ths.set t (if s.nextWriterId = 1 then TS.wClear else TS.wDone),
               nextWriterId := s.nextWriterId - 1,
               gDropped := s.gDropped + 1 }
  | TS.wClear =>
      -- is_writing.store(false) (cas.rs 57)
      { s with ths := s.ths.set t TS.wDone, isWriting := false }
  | TS.wDone => s

/-- Initial state of a cell built by `CASAccessControl::new` (cas.rs
108-115, via `Default`, cas.rs 95-106): every shared counter is zero,
`is_writing` is false, and `max_write_line` is the configured value.  Each
entry of `ks` spawns one thread: `true` a writer, `false` a reader. -/
def mkSt (ks : List Bool) (mwl : Nat) : St :=
  { ths := ks.map fun k => bif k then TS.wStart else TS.rStart,
    activeReaders := 0, pendingReaders := 0, readSlots := 0,
    writeSlots := 0, nextWriterId := 0, pendingWriters := 0,
    isWriting := false, maxWriteLine := mwl,
    gPS := 0, gAdm := 0, gDropped := 0, gInstalled := 0, gSlotAdm := 0,
    gSetup := true, gDrained := false }

/-- Execution under a schedule: the scheduler picks which thread performs
its next atomic instruction. -/
def run (s : St) (sched : List Nat) : St :=
  sched.foldl applyStep s

/-- `s` is reachable from `s0` by some interleaving. -/
def Reach (s0 s : St) : Prop :=
  ∃ sched : List Nat, run s0 sched = s

theorem run_append (s : St) (a b : List Nat) :
    run s (a ++ b) = run (run s a) b :=
  List.foldl_append ..

theorem reach_trans (s0 s1 s2 : St) (h1 : Reach s0 s1) (h2 : Reach s1 s2) :
    Reach s0 s2 := by
  obtain ⟨a, ha⟩ := h1
  obtain ⟨b, hb⟩ := h2
  exact ⟨a ++ b, by rw [run_append, ha, hb]⟩

/-- Readers counted by `pending_readers`: registered, not yet moved to
active (not yet past `initialize_read` or `try_reserve_read_slot`). -/
def isRegR : TS → Bool
  | TS.rLoad | TS.rTrySlot | TS.rInit => true
  | _ => false

/-- Readers counted by `active_readers` (past `initialize_read` or a
successful slot reservation, before the permit drop). -/
def isActR : TS → Bool
  | TS.rCheck | TS.rReset | TS.rHold => true
  | _ => false

/-- Reader holding a `CASReadGuard` (admitted, permit not yet dropped). -/
def isRHold : TS → Bool
  | TS.rHold => true
  | _ => false

/-- Writers counted by `pending_writers`. -/
def isRegW : TS → Bool
  | TS.wLoad | TS.wTrySlot | TS.wSwap | TS.wSnapPW
  | TS.wStoreSlots _ | TS.wStoreNext _ | TS.wDec _ _ => true
  | _ => false

/-- Writers admitted into the current phase that have not yet dropped
their permit (the initiator from its `init_write_slot` store on, each
follower from its successful slot reservation on). -/
def isAdmW : TS → Bool
  | TS.wStoreNext _ | TS.wDec _ _ | TS.wSnapPR _ | TS.wInstall _ _
  | TS.wDrain _ | TS.wWaitTurn _ | TS.wHold _ _ => true
  | _ => false

/-- Writers inside the phase machinery (between winning or joining a phase
and finishing the permit drop). -/
def isPhaseW : TS → Bool
  | TS.wSnapPW | TS.wStoreSlots _ | TS.wStoreNext _ | TS.wDec _ _
  | TS.wSnapPR _ | TS.wInstall _ _ | TS.wDrain _ | TS.wWaitTurn _
  | TS.wHold _ _ | TS.wClear => true
  | _ => false

/-- The initiator of the current phase (the writer that won the
`is_writing` swap), at any point before its permit drop finishes. -/
def isInitRole : TS → Bool
  | TS.wSnapPW | TS.wStoreSlots _ | TS.wStoreNext _
  | TS.wSnapPR _ | TS.wInstall _ _ | TS.wDrain _ => true
  | TS.wDec _ ini => ini
  | TS.wHold _ ini => ini
  | _ => false

/-- The initiator before its `init_write_slot` store. -/
def isPreSlots : TS → Bool
  | TS.wSnapPW | TS.wStoreSlots _ => true
  | _ => false

/-- The initiator before its `next_writer_id` store. -/
def isPreSetup : TS → Bool
  | TS.wSnapPW | TS.wStoreSlots _ | TS.wStoreNext _ => true
  | _ => false

/-- The initiator before its `initialize_read_slots` store completes. -/
def isPreInstall : TS → Bool
  | TS.wSnapPW | TS.wStoreSlots _ | TS.wStoreNext _
  | TS.wSnapPR _ | TS.wInstall _ _ => true
  | TS.wDec _ ini => ini
  | _ => false

/-- The initiator before its drain loop exits. -/
def isPreDrain : TS → Bool
  | TS.wSnapPW | TS.wStoreSlots _ | TS.wStoreNext _
  | TS.wSnapPR _ | TS.wInstall _ _ | TS.wDrain _ => true
  | TS.wDec _ ini => ini
  | _ => false

/-- Writer holding a `CASWriteGuard` (its mutation window). -/
def isWHold : TS → Bool
  | TS.wHold _ _ => true
  | _ => false

/-- Writer between the fetch_sub that observed 1 and the store clearing
`is_writing`. -/
def isWClear : TS → Bool
  | TS.wClear => true
  | _ => false

/-- Admitted follower of the current phase. -/
def isFol : TS → Bool
  | TS.wWaitTurn _ => true
  | TS.wDec _ ini => !ini
  | TS.wHold _ ini => !ini
  | _ => false

/-- Writer past the phase's `next_writer_id` store in program order. -/
def isPostSetup : TS → Bool
  | TS.wSnapPR _ | TS.wInstall _ _ | TS.wDrain _ | TS.wHold _ _ => true
  | TS.wDec _ ini => ini
  | _ => false

/-- Slot index of an admitted follower (0 for every other state). -/
def folIdxOf : TS → Nat
  | TS.wWaitTurn idx => idx
  | TS.wDec idx ini => bif ini then 0 else idx
  | TS.wHold idx ini => bif ini then 0 else idx
  | _ => 0

/-- The inductive invariant of the phased-CAS controller.  `cnt P` counts
threads by class; the pure-shared-state facts tie the atomics to the
thread census and the ghost phase history. -/
structure Inv (s : St) : Prop where
  mwl1 : 1 ≤ s.maxWriteLine
  prC : s.pendingReaders = s.ths.countP isRegR
  arC : s.activeReaders = s.ths.countP isActR
  pwC : s.pendingWriters = s.ths.countP isRegW
  openC : s.isWriting = false →
    s.ths.countP isPhaseW = 0 ∧ s.writeSlots = 0 ∧ s.nextWriterId = 0 ∧ s.readSlots = 0
  initU : s.ths.countP isInitRole ≤ 1
  clearU : s.ths.countP isWClear ≤ 1
  admC : s.ths.countP isAdmW + s.gDropped = s.gAdm
  wsC : s.writeSlots + s.gAdm = s.gPS
  admZ : s.gAdm = 0 → s.writeSlots = 0
  psB : s.gPS ≤ s.maxWriteLine
  nwSetup : s.gSetup = true → s.nextWriterId + s.gDropped = s.gPS
  nwPre : s.gSetup = false → s.isWriting = true → s.nextWriterId = 0 ∧ s.gDropped = 0
  preZero : ∀ i, isPreSlots (s.ths.getD i TS.rDone) = true →
    s.writeSlots = 0 ∧ s.gAdm = 0 ∧ s.gDropped = 0 ∧ s.gPS = 0
  preSet : ∀ i, isPreSetup (s.ths.getD i TS.rDone) = true → s.gSetup = false
  postSet : ∀ i, isPostSetup (s.ths.getD i TS.rDone) = true → s.gSetup = true
  szB : ∀ i sz, (s.ths.getD i TS.rDone = TS.wStoreSlots sz ∨
      s.ths.getD i TS.rDone = TS.wStoreNext sz) → 1 ≤ sz ∧ sz ≤ s.maxWriteLine
  szLink : ∀ i sz, s.ths.getD i TS.rDone = TS.wStoreNext sz → s.gPS = sz
  folIdx : ∀ i, isFol (s.ths.getD i TS.rDone) = true →
    1 ≤ folIdxOf (s.ths.getD i TS.rDone) ∧ folIdxOf (s.ths.getD i TS.rDone) + 1 ≤ s.gPS
  instZ : ∀ i, isPreInstall (s.ths.getD i TS.rDone) = true →
    s.readSlots = 0 ∧ s.gInstalled = 0 ∧ s.gSlotAdm = 0
  drainF : ∀ i, isPreDrain (s.ths.getD i TS.rDone) = true → s.gDrained = false
  prPos : ∀ i idx pr, s.ths.getD i TS.rDone = TS.wInstall idx pr → 1 ≤ pr
  slotC : s.gSlotAdm + s.readSlots = s.gInstalled
  invA : s.isWriting = true → s.gDrained = true →
    s.readSlots = 0 ∧ s.ths.countP isRHold = 0
  invH : ∀ i, isWHold (s.ths.getD i TS.rDone) = true →
    s.isWriting = true ∧ s.gDrained = true
  dropP : 1 ≤ s.gDropped → s.gDrained = true
  clearI : ∀ i, s.ths.getD i TS.rDone = TS.wClear →
    s.isWriting = true ∧ s.nextWriterId = 0 ∧ s.gDropped = s.gPS ∧
    s.gSetup = true ∧ 1 ≤ s.gPS

theorem inv_mkSt (ks : List Bool) (mwl : Nat) (h : 1 ≤ mwl) : Inv (mkSt ks mwl) := by
  have hall : ∀ a ∈ (mkSt ks mwl).ths, a = TS.rStart ∨ a = TS.wStart := by
    intro a ha
    simp only [mkSt, List.mem_map] at ha
    obtain ⟨k, _, hk⟩ := ha
    cases k
    · left; exact hk.symm
    · right; exact hk.symm
  have hz : ∀ P : TS → Bool, P TS.rStart = false → P TS.wStart = false →
      (mkSt ks mwl).ths.countP P = 0 := by
    intro P h1 h2
    apply ListCnt.countP_eq_zero_of_all
    intro a ha
    rcases hall a ha with rfl | rfl
    · exact h1
    · exact h2
  have hgetD : ∀ i, (mkSt ks mwl).ths.getD i TS.rDone = TS.rStart ∨
      (mkSt ks mwl).ths.getD i TS.rDone = TS.wStart ∨
      (mkSt ks mwl).ths.getD i TS.rDone = TS.rDone := by
    intro i
    by_cases hi : i < (mkSt ks mwl).ths.length
    · rw [ListCnt.getD_eq_get _ _ _ hi]
      rcases hall _ (List.get_mem _ i hi) with h1 | h1
      · left; exact h1
      · right; left; exact h1
    · right; right
      exact List.getD_eq_default _ _ (by omega)
  refine ⟨h, ?_, ?_, ?_, ?_, ?_, ?_, ?_, ?_, ?_, ?_, ?_, ?_, ?_, ?_, ?_, ?_,
    ?_, ?_, ?_, ?_, ?_, ?_, ?_, ?_, ?_, ?_⟩
  · exact (hz isRegR rfl rfl).symm
  · exact (hz isActR rfl rfl).symm
  · exact (hz isRegW rfl rfl).symm
  · exact fun _ => ⟨hz isPhaseW rfl rfl, rfl, rfl, rfl⟩
  · rw [hz isInitRole rfl rfl]; omega
  · rw [hz isWClear rfl rfl]; omega
  · rw [hz isAdmW rfl rfl]; rfl
  · rfl
  · exact fun _ => rfl
  · exact Nat.zero_le _
  · exact fun _ => rfl
  · intro _ hw; exact absurd hw (by simp [mkSt])
  · intro i hi; rcases hgetD i with he | he | he <;> rw [he] at hi <;> simp [isPreSlots] at hi
  · intro i hi; rcases hgetD i with he | he | he <;> rw [he] at hi <;> simp [isPreSetup] at hi
  · intro i hi; rcases hgetD i with he | he | he <;> rw [he] at hi <;> simp [isPostSetup] at hi
  · intro i sz hi
    rcases hgetD i with he | he | he <;> rw [he] at hi <;>
      rcases hi with hi | hi <;> simp at hi
  · intro i sz hi
    rcases hgetD i with he | he | he <;> rw [he] at hi <;> simp at hi
  · intro i hi; rcases hgetD i with he | he | he <;> rw [he] at hi <;> simp [isFol] at hi
  · intro i hi; rcases hgetD i with he | he | he <;> rw [he] at hi <;> simp [isPreInstall] at hi
  · intro i hi; rcases hgetD i with he | he | he <;> rw [he] at hi <;> simp [isPreDrain] at hi
  · intro i idx pr hi; rcases hgetD i with he | he | he <;> rw [he] at hi <;> simp at hi
  · rfl
  · intro hw; exact absurd hw (by simp [mkSt])
  · intro i hi; rcases hgetD i with he | he | he <;> rw [he] at hi <;> simp [isWHold] at hi
  · intro hd; exact absurd hd (by simp [mkSt])
  · intro i hi; rcases hgetD i with he | he | he <;> rw [he] at hi <;> simp at hi

theorem transQ (l : List TS) {t : Nat} (ht : t < l.length) (v : TS)
    {Q : TS → Bool} {C : Prop} (hv : Q v = false)
    (hpre : ∀ i, Q (l.getD i TS.rDone) = true → C) :
    ∀ i, Q ((l.set t v).getD i TS.rDone) = true → C := by
  intro i hq
  rw [ListCnt.getD_set_eq_ite l t ht v TS.rDone i] at hq
  by_cases hit : i = t
  · rw [if_pos hit, hv] at hq; cases hq
  · rw [if_neg hit] at hq; exact hpre i hq

theorem step_rStart (s : St) (t : Nat) (inv : Inv s) (ht : t < s.ths.length)
    (hg : s.ths.get ⟨t, ht⟩ = TS.rStart) : Inv (applyStep s t) := by
  have hgd : s.ths.getD t TS.rDone = TS.rStart := by
    rw [ListCnt.getD_eq_get _ _ _ ht, hg]
  have same : ∀ P : TS → Bool, P TS.rStart = P TS.rLoad →
      (s.ths.set t TS.rLoad).countP P = s.ths.countP P := fun P hP =>
    ListCnt.countP_set_same P _ t _ ht (by rw [hg]; exact hP)
  have hreg : (s.ths.set t TS.rLoad).countP isRegR = s.ths.countP isRegR + 1 :=
    ListCnt.countP_set_incr _ _ t _ ht (by rw [hg]; rfl) rfl
  simp only [applyStep, hgd]
  refine ⟨inv.mwl1, ?_, ?_, ?_, ?_, ?_, ?_, ?_, inv.wsC, inv.admZ, inv.psB,
    inv.nwSetup, inv.nwPre, ?_, ?_, ?_, ?_, ?_, ?_, ?_, ?_, ?_, inv.slotC,
    ?_, ?_, inv.dropP, ?_⟩
  · dsimp only
    rw [hreg, ← inv.prC]
  · dsimp only
    rw [same isActR rfl, ← inv.arC]
  · dsimp only
    rw [same isRegW rfl, ← inv.pwC]
  · intro hw
    dsimp only at hw ⊢
    rw [same isPhaseW rfl]
    exact inv.openC hw
  · dsimp only
    rw [same isInitRole rfl]
    exact inv.initU
  · dsimp only
    rw [same isWClear rfl]
    exact inv.clearU
  · dsimp only
    rw [same isAdmW rfl]
    exact inv.admC
  · exact transQ s.ths ht _ rfl inv.preZero
  · exact transQ s.ths ht _ rfl inv.preSet
  · exact transQ s.ths ht _ rfl inv.postSet
  · intro i sz hq
    dsimp only at hq
    rw [ListCnt.getD_set_eq_ite s.ths t ht _ TS.rDone i] at hq
    by_cases hit : i = t
    · rw [if_pos hit] at hq
      rcases hq with hq | hq <;> cases hq
    · rw [if_neg hit] at hq
      exact inv.szB i sz hq
  · intro i sz hq
    dsimp only at hq ⊢
    rw [ListCnt.getD_set_eq_ite s.ths t ht _ TS.rDone i] at hq
    by_cases hit : i = t
    · rw [if_pos hit] at hq; cases hq
    · rw [if_neg hit] at hq
      exact inv.szLink i sz hq
  · intro i hq
    dsimp only at hq ⊢
    rw [ListCnt.getD_set_eq_ite s.ths t ht _ TS.rDone i] at hq ⊢
    by_cases hit : i = t
    · rw [if_pos hit] at hq; cases hq
    · rw [if_neg hit] at hq ⊢
      exact inv.folIdx i hq
  · exact transQ s.ths ht _ rfl inv.instZ
  · exact transQ s.ths ht _ rfl inv.drainF
  · intro i idx pr hq
    dsimp only at hq
    rw [ListCnt.getD_set_eq_ite s.ths t ht _ TS.rDone i] at hq
    by_cases hit : i = t
    · rw [if_pos hit] at hq; cases hq
    · rw [if_neg hit] at hq
      exact inv.prPos i idx pr hq
  · intro hw hd
    dsimp only at hw hd ⊢
    rw [same isRHold rfl]
    exact inv.invA hw hd
  · exact transQ s.ths ht _ rfl inv.invH
  · intro i hq
    dsimp only at hq ⊢
    rw [ListCnt.getD_set_eq_ite s.ths t ht _ TS.rDone i] at hq
    by_cases hit : i = t
    · rw [if_pos hit] at hq; cases hq
    · rw [if_neg hit] at hq
      exact inv.clearI i hq

theorem iw_of_phase (s : St) (inv : Inv s) (i : Nat)
    (h : isPhaseW (s.ths.getD i TS.rDone) = true) : s.isWriting = true := by
  cases hW : s.isWriting
  · have h0 := (inv.openC hW).1
    have := ListCnt.all_of_countP_zero isPhaseW s.ths TS.rDone rfl h0 i
    rw [this] at h; cases h
  · rfl

theorem cnt_pos_getD (l : List TS) (i : Nat) (P : TS → Bool) (x : TS)
    (hx : l.getD i TS.rDone = x) (hP : P x = true) (hd : P TS.rDone = false) :
    1 ≤ l.countP P := by
  have hxne : x ≠ TS.rDone := by
    intro he; rw [he, hd] at hP; cases hP
  have hi : i < l.length := ListCnt.getD_lt l TS.rDone i x hx hxne
  apply ListCnt.countP_pos_of_get P l i hi
  rw [← ListCnt.getD_eq_get l TS.rDone i hi, hx]
  exact hP

theorem unique_other (l : List TS) (Q : TS → Bool) (hd : Q TS.rDone = false)
    (hcnt : l.countP Q ≤ 1) (t : Nat) (ht : t < l.length)
    (hQt : Q (l.get ⟨t, ht⟩) = true) :
    ∀ i, i ≠ t → Q (l.getD i TS.rDone) = false := by
  intro i hit
  cases hQ : Q (l.getD i TS.rDone)
  · rfl
  · exfalso
    have hxne : l.getD i TS.rDone ≠ TS.rDone := by
      intro he; rw [he, hd] at hQ; cases hQ
    have hi : i < l.length := ListCnt.getD_lt l TS.rDone i _ rfl hxne
    have hQi : Q (l.get ⟨i, hi⟩) = true := by
      rw [← ListCnt.getD_eq_get l TS.rDone i hi]; exact hQ
    have := ListCnt.countP_two Q l i t hi ht hit hQi hQt
    omega

/-- A step that only moves a thread between two program points of the same
census classes, touching no shared or ghost field, preserves the
invariant. -/
theorem inv_pc_pure (s : St) (t : Nat) (inv : Inv s) (ht : t < s.ths.length)
    (old new : TS) (hg : s.ths.get ⟨t, ht⟩ = old)
    (h1 : isRegR old = isRegR new) (h2 : isActR old = isActR new)
    (h3 : isRHold old = isRHold new) (h4 : isRegW old = isRegW new)
    (h5 : isAdmW old = isAdmW new) (h6 : isPhaseW old = isPhaseW new)
    (h7 : isInitRole old = isInitRole new) (h8 : isWClear old = isWClear new)
    (h9 : isPreSlots new = false) (h10 : isPreSetup new = false)
    (h11 : isPostSetup new = false) (h12 : isPreInstall new = false)
    (h13 : isPreDrain new = false) (h14 : isWHold new = false)
    (h15 : isFol new = false)
    (h16 : ∀ sz, new ≠ TS.wStoreSlots sz) (h17 : ∀ sz, new ≠ TS.wStoreNext sz)
    (h18 : ∀ idx pr, new ≠ TS.wInstall idx pr) (h19 : new ≠ TS.wClear) :
    Inv { s with ths := s.ths.set t new } := by
  have same : ∀ P : TS → Bool, P old = P new →
      (s.ths.set t new).countP P = s.ths.countP P := fun P hP =>
    ListCnt.countP_set_same P _ t _ ht (by rw [hg]; exact hP)
  refine ⟨inv.mwl1, ?_, ?_, ?_, ?_, ?_, ?_, ?_, inv.wsC, inv.admZ, inv.psB,
    inv.nwSetup, inv.nwPre, ?_, ?_, ?_, ?_, ?_, ?_, ?_, ?_, ?_, inv.slotC,
    ?_, ?_, inv.dropP, ?_⟩
  · dsimp only
    rw [same isRegR h1, ← inv.prC]
  · dsimp only
    rw [same isActR h2, ← inv.arC]
  · dsimp only
    rw [same isRegW h4, ← inv.pwC]
  · intro hw
    dsimp only at hw ⊢
    rw [same isPhaseW h6]
    exact inv.openC hw
  · dsimp only
    rw [same isInitRole h7]
    exact inv.initU
  · dsimp only
    rw [same isWClear h8]
    exact inv.clearU
  · dsimp only
    rw [same isAdmW h5]
    exact inv.admC
  · exact transQ s.ths ht _ h9 inv.preZero
  · exact transQ s.ths ht _ h10 inv.preSet
  · exact transQ s.ths ht _ h11 inv.postSet
  · intro i sz hq
    dsimp only at hq
    rw [ListCnt.getD_set_eq_ite s.ths t ht _ TS.rDone i] at hq
    by_cases hit : i = t
    · rw [if_pos hit] at hq
      rcases hq with hq | hq
      · exact absurd hq (h16 sz)
      · exact absurd hq (h17 sz)
    · rw [if_neg hit] at hq
      exact inv.szB i sz hq
  · intro i sz hq
    dsimp only at hq ⊢
    rw [ListCnt.getD_set_eq_ite s.ths t ht _ TS.rDone i] at hq
    by_cases hit : i = t
    · rw [if_pos hit] at hq
      exact absurd hq (h17 sz)
    · rw [if_neg hit] at hq
      exact inv.szLink i sz hq
  · intro i hq
    dsimp only at hq ⊢
    rw [ListCnt.getD_set_eq_ite s.ths t ht _ TS.rDone i] at hq ⊢
    by_cases hit : i = t
    · rw [if_pos hit] at hq
      rw [h15] at hq; cases hq
    · rw [if_neg hit] at hq ⊢
      exact inv.folIdx i hq
  · exact transQ s.ths ht _ h12 inv.instZ
  · exact transQ s.ths ht _ h13 inv.drainF
  · intro i idx pr hq
    dsimp only at hq
    rw [ListCnt.getD_set_eq_ite s.ths t ht _ TS.rDone i] at hq
    by_cases hit : i = t
    · rw [if_pos hit] at hq
      exact absurd hq (h18 idx pr)
    · rw [if_neg hit] at hq
      exact inv.prPos i idx pr hq
  · intro hw hd
    dsimp only at hw hd ⊢
    rw [same isRHold h3]
    exact inv.invA hw hd
  · exact transQ s.ths ht _ h14 inv.invH
  · intro i hq
    dsimp only at hq ⊢
    rw [ListCnt.getD_set_eq_ite s.ths t ht _ TS.rDone i] at hq
    by_cases hit : i = t
    · rw [if_pos hit] at hq
      exact absurd hq h19
    · rw [if_neg hit] at hq
      exact inv.clearI i hq

theorem transQ' (l : List TS) {t : Nat} (ht : t < l.length) (old new : TS)
    (hold : l.getD t TS.rDone = old)
    {Q : TS → Bool} {C : Prop} (hv : Q new = true → Q old = true)
    (hpre : ∀ i, Q (l.getD i TS.rDone) = true → C) :
    ∀ i, Q ((l.set t new).getD i TS.rDone) = true → C := by
  intro i hq
  rw [ListCnt.getD_set_eq_ite l t ht new TS.rDone i] at hq
  by_cases hit : i = t
  · rw [if_pos hit] at hq
    exact hpre t (by rw [hold]; exact hv hq)
  · rw [if_neg hit] at hq
    exact hpre i hq

theorem step_rLoad (s : St) (t : Nat) (inv : Inv s)
    (hgd : s.ths.getD t TS.rDone = TS.rLoad) : Inv (applyStep s t) := by
  have ht : t < s.ths.length := ListCnt.getD_lt _ _ _ _ hgd (by intro h; cases h)
  have hg : s.ths.get ⟨t, ht⟩ = TS.rLoad := by
    rw [← ListCnt.getD_eq_get s.ths TS.rDone t ht]; exact hgd
  simp only [applyStep, hgd]
  by_cases hw : s.isWriting = true
  · rw [if_pos hw]
    exact inv_pc_pure s t inv ht _ _ hg rfl rfl rfl rfl rfl rfl rfl rfl rfl rfl
      rfl rfl rfl rfl rfl (fun _ h => TS.noConfusion h) (fun _ h => TS.noConfusion h)
      (fun _ _ h => TS.noConfusion h) (fun h => TS.noConfusion h)
  · rw [if_neg hw]
    exact inv_pc_pure s t inv ht _ _ hg rfl rfl rfl rfl rfl rfl rfl rfl rfl rfl
      rfl rfl rfl rfl rfl (fun _ h => TS.noConfusion h) (fun _ h => TS.noConfusion h)
      (fun _ _ h => TS.noConfusion h) (fun h => TS.noConfusion h)

theorem step_rTrySlot (s : St) (t : Nat) (inv : Inv s)
    (hgd : s.ths.getD t TS.rDone = TS.rTrySlot) : Inv (applyStep s t) := by
  have ht : t < s.ths.length := ListCnt.getD_lt _ _ _ _ hgd (by intro h; cases h)
  have hg : s.ths.get ⟨t, ht⟩ = TS.rTrySlot := by
    rw [← ListCnt.getD_eq_get s.ths TS.rDone t ht]; exact hgd
  simp only [applyStep, hgd]
  by_cases hrs : s.readSlots = 0
  · rw [if_pos hrs]
    exact inv_pc_pure s t inv ht _ _ hg rfl rfl rfl rfl rfl rfl rfl rfl rfl rfl
      rfl rfl rfl rfl rfl (fun _ h => TS.noConfusion h) (fun _ h => TS.noConfusion h)
      (fun _ _ h => TS.noConfusion h) (fun h => TS.noConfusion h)
  · rw [if_neg hrs]
    have hiw : s.isWriting = true := by
      cases hW : s.isWriting
      · exact absurd (inv.openC hW).2.2.2 hrs
      · rfl
    have same : ∀ P : TS → Bool, P TS.rTrySlot = P TS.rHold →
        (s.ths.set t TS.rHold).countP P = s.ths.countP P := fun P hP =>
      ListCnt.countP_set_same P _ t _ ht (by rw [hg]; exact hP)
    have hregd : s.ths.countP isRegR = (s.ths.set t TS.rHold).countP isRegR + 1 :=
      ListCnt.countP_set_decr _ _ t _ ht (by rw [hg]; rfl) rfl
    have hacti : (s.ths.set t TS.rHold).countP isActR = s.ths.countP isActR + 1 :=
      ListCnt.countP_set_incr _ _ t _ ht (by rw [hg]; rfl) rfl
    have hpr1 : 1 ≤ s.pendingReaders := by
      rw [inv.prC]
      exact cnt_pos_getD s.ths t isRegR TS.rTrySlot hgd rfl rfl
    refine ⟨inv.mwl1, ?_, ?_, ?_, ?_, ?_, ?_, ?_, inv.wsC, inv.admZ, inv.psB,
      inv.nwSetup, inv.nwPre, ?_, ?_, ?_, ?_, ?_, ?_, ?_, ?_, ?_, ?_,
      ?_, ?_, inv.dropP, ?_⟩
    · dsimp only
      have := inv.prC
      omega
    · dsimp only
      rw [hacti, ← inv.arC]
    · dsimp only
      rw [same isRegW rfl, ← inv.pwC]
    · intro hw
      dsimp only at hw
      rw [hiw] at hw; cases hw
    · dsimp only
      rw [same isInitRole rfl]; exact inv.initU
    · dsimp only
      rw [same isWClear rfl]; exact inv.clearU
    · dsimp only
      rw [same isAdmW rfl]; exact inv.admC
    · exact transQ s.ths ht _ rfl inv.preZero
    · exact transQ s.ths ht _ rfl inv.preSet
    · exact transQ s.ths ht _ rfl inv.postSet
    · intro i sz hq
      dsimp only at hq
      rw [ListCnt.getD_set_eq_ite s.ths t ht _ TS.rDone i] at hq
      by_cases hit : i = t
      · rw [if_pos hit] at hq
        rcases hq with hq | hq <;> exact TS.noConfusion hq
      · rw [if_neg hit] at hq
        exact inv.szB i sz hq
    · intro i sz hq
      dsimp only at hq ⊢
      rw [ListCnt.getD_set_eq_ite s.ths t ht _ TS.rDone i] at hq
      by_cases hit : i = t
      · rw [if_pos hit] at hq; exact TS.noConfusion hq
      · rw [if_neg hit] at hq
        exact inv.szLink i sz hq
    · intro i hq
      dsimp only at hq ⊢
      rw [ListCnt.getD_set_eq_ite s.ths t ht _ TS.rDone i] at hq ⊢
      by_cases hit : i = t
      · rw [if_pos hit] at hq; cases hq
      · rw [if_neg hit] at hq ⊢
        exact inv.folIdx i hq
    · intro i hq
      dsimp only at hq
      rw [ListCnt.getD_set_eq_ite s.ths t ht _ TS.rDone i] at hq
      by_cases hit : i = t
      · rw [if_pos hit] at hq; cases hq
      · rw [if_neg hit] at hq
        exact absurd (inv.instZ i hq).1 hrs
    · exact transQ s.ths ht _ rfl inv.drainF
    · intro i idx pr hq
      dsimp only at hq
      rw [ListCnt.getD_set_eq_ite s.ths t ht _ TS.rDone i] at hq
      by_cases hit : i = t
      · rw [if_pos hit] at hq; exact TS.noConfusion hq
      · rw [if_neg hit] at hq
        exact inv.prPos i idx pr hq
    · dsimp only
      have := inv.slotC
      omega
    · intro h1 h2
      dsimp only at h1 h2
      exact absurd (inv.invA h1 h2).1 hrs
    · exact transQ s.ths ht _ rfl inv.invH
    · intro i hq
      dsimp only at hq ⊢
      rw [ListCnt.getD_set_eq_ite s.ths t ht _ TS.rDone i] at hq
      by_cases hit : i = t
      · rw [if_pos hit] at hq; exact TS.noConfusion hq
      · rw [if_neg hit] at hq
        exact inv.clearI i hq

theorem step_rInit (s : St) (t : Nat) (inv : Inv s)
    (hgd : s.ths.getD t TS.rDone = TS.rInit) : Inv (applyStep s t) := by
  have ht : t < s.ths.length := ListCnt.getD_lt _ _ _ _ hgd (by intro h; cases h)
  have hg : s.ths.get ⟨t, ht⟩ = TS.rInit := by
    rw [← ListCnt.getD_eq_get s.ths TS.rDone t ht]; exact hgd
  simp only [applyStep, hgd]
  have same : ∀ P : TS → Bool, P TS.rInit = P TS.rCheck →
      (s.ths.set t TS.rCheck).countP P = s.ths.countP P := fun P hP =>
    ListCnt.countP_set_same P _ t _ ht (by rw [hg]; exact hP)
  have hregd : s.ths.countP isRegR = (s.ths.set t TS.rCheck).countP isRegR + 1 :=
    ListCnt.countP_set_decr _ _ t _ ht (by rw [hg]; rfl) rfl
  have hacti : (s.ths.set t TS.rCheck).countP isActR = s.ths.countP isActR + 1 :=
    ListCnt.countP_set_incr _ _ t _ ht (by rw [hg]; rfl) rfl
  have hpr1 : 1 ≤ s.pendingReaders := by
    rw [inv.prC]
    exact cnt_pos_getD s.ths t isRegR TS.rInit hgd rfl rfl
  refine ⟨inv.mwl1, ?_, ?_, ?_, ?_, ?_, ?_, ?_, inv.wsC, inv.admZ, inv.psB,
    inv.nwSetup, inv.nwPre, ?_, ?_, ?_, ?_, ?_, ?_, ?_, ?_, ?_, inv.slotC,
    ?_, ?_, inv.dropP, ?_⟩
  · dsimp only
    have := inv.prC
    omega
  · dsimp only
    rw [hacti, ← inv.arC]
  · dsimp only
    rw [same isRegW rfl, ← inv.pwC]
  · intro hw
    dsimp only at hw ⊢
    rw [same isPhaseW rfl]
    exact inv.openC hw
  · dsimp only
    rw [same isInitRole rfl]; exact inv.initU
  · dsimp only
    rw [same isWClear rfl]; exact inv.clearU
  · dsimp only
    rw [same isAdmW rfl]; exact inv.admC
  · exact transQ s.ths ht _ rfl inv.preZero
  · exact transQ s.ths ht _ rfl inv.preSet
  · exact transQ s.ths ht _ rfl inv.postSet
  · intro i sz hq
    dsimp only at hq
    rw [ListCnt.getD_set_eq_ite s.ths t ht _ TS.rDone i] at hq
    by_cases hit : i = t
    · rw [if_pos hit] at hq
      rcases hq with hq | hq <;> exact TS.noConfusion hq
    · rw [if_neg hit] at hq
      exact inv.szB i sz hq
  · intro i sz hq
    dsimp only at hq ⊢
    rw [ListCnt.getD_set_eq_ite s.ths t ht _ TS.rDone i] at hq
    by_cases hit : i = t
    · rw [if_pos hit] at hq; exact TS.noConfusion hq
    · rw [if_neg hit] at hq
      exact inv.szLink i sz hq
  · intro i hq
    dsimp only at hq ⊢
    rw [ListCnt.getD_set_eq_ite s.ths t ht _ TS.rDone i] at hq ⊢
    by_cases hit : i = t
    · rw [if_pos hit] at hq; cases hq
    · rw [if_neg hit] at hq ⊢
      exact inv.folIdx i hq
  · exact transQ s.ths ht _ rfl inv.instZ
  · exact transQ s.ths ht _ rfl inv.drainF
  · intro i idx pr hq
    dsimp only at hq
    rw [ListCnt.getD_set_eq_ite s.ths t ht _ TS.rDone i] at hq
    by_cases hit : i = t
    · rw [if_pos hit] at hq; exact TS.noConfusion hq
    · rw [if_neg hit] at hq
      exact inv.prPos i idx pr hq
  · intro h1 h2
    dsimp only at h1 h2 ⊢
    rw [same isRHold rfl]
    exact inv.invA h1 h2
  · exact transQ s.ths ht _ rfl inv.invH
  · intro i hq
    dsimp only at hq ⊢
    rw [ListCnt.getD_set_eq_ite s.ths t ht _ TS.rDone i] at hq
    by_cases hit : i = t
    · rw [if_pos hit] at hq; exact TS.noConfusion hq
    · rw [if_neg hit] at hq
      exact inv.clearI i hq

theorem step_rCheck (s : St) (t : Nat) (inv : Inv s)
    (hgd : s.ths.getD t TS.rDone = TS.rCheck) : Inv (applyStep s t) := by
  have ht : t < s.ths.length := ListCnt.getD_lt _ _ _ _ hgd (by intro h; cases h)
  have hg : s.ths.get ⟨t, ht⟩ = TS.rCheck := by
    rw [← ListCnt.getD_eq_get s.ths TS.rDone t ht]; exact hgd
  simp only [applyStep, hgd]
  by_cases hw : s.isWriting = true
  · rw [if_pos hw]
    exact inv_pc_pure s t inv ht _ _ hg rfl rfl rfl rfl rfl rfl rfl rfl rfl rfl
      rfl rfl rfl rfl rfl (fun _ h => TS.noConfusion h) (fun _ h => TS.noConfusion h)
      (fun _ _ h => TS.noConfusion h) (fun h => TS.noConfusion h)
  · rw [if_neg hw]
    have hwf : s.isWriting = false := by
      cases hW : s.isWriting
      · rfl
      · exact absurd hW hw
    have same : ∀ P : TS → Bool, P TS.rCheck = P TS.rHold →
        (s.ths.set t TS.rHold).countP P = s.ths.countP P := fun P hP =>
      ListCnt.countP_set_same P _ t _ ht (by rw [hg]; exact hP)
    refine ⟨inv.mwl1, ?_, ?_, ?_, ?_, ?_, ?_, ?_, inv.wsC, inv.admZ, inv.psB,
      inv.nwSetup, inv.nwPre, ?_, ?_, ?_, ?_, ?_, ?_, ?_, ?_, ?_, inv.slotC,
      ?_, ?_, inv.dropP, ?_⟩
    · dsimp only
      rw [same isRegR rfl, ← inv.prC]
    · dsimp only
      rw [same isActR rfl, ← inv.arC]
    · dsimp only
      rw [same isRegW rfl, ← inv.pwC]
    · intro hw2
      dsimp only at hw2 ⊢
      rw [same isPhaseW rfl]
      exact inv.openC hw2
    · dsimp only
      rw [same isInitRole rfl]; exact inv.initU
    · dsimp only
      rw [same isWClear rfl]; exact inv.clearU
    · dsimp only
      rw [same isAdmW rfl]; exact inv.admC
    · exact transQ s.ths ht _ rfl inv.preZero
    · exact transQ s.ths ht _ rfl inv.preSet
    · exact transQ s.ths ht _ rfl inv.postSet
    · intro i sz hq
      dsimp only at hq
      rw [ListCnt.getD_set_eq_ite s.ths t ht _ TS.rDone i] at hq
      by_cases hit : i = t
      · rw [if_pos hit] at hq
        rcases hq with hq | hq <;> exact TS.noConfusion hq
      · rw [if_neg hit] at hq
        exact inv.szB i sz hq
    · intro i sz hq
      dsimp only at hq ⊢
      rw [ListCnt.getD_set_eq_ite s.ths t ht _ TS.rDone i] at hq
      by_cases hit : i = t
      · rw [if_pos hit] at hq; exact TS.noConfusion hq
      · rw [if_neg hit] at hq
        exact inv.szLink i sz hq
    · intro i hq
      dsimp only at hq ⊢
      rw [ListCnt.getD_set_eq_ite s.ths t ht _ TS.rDone i] at hq ⊢
      by_cases hit : i = t
      · rw [if_pos hit] at hq; cases hq
      · rw [if_neg hit] at hq ⊢
        exact inv.folIdx i hq
    · exact transQ s.ths ht _ rfl inv.instZ
    · exact transQ s.ths ht _ rfl inv.drainF
    · intro i idx pr hq
      dsimp only at hq
      rw [ListCnt.getD_set_eq_ite s.ths t ht _ TS.rDone i] at hq
      by_cases hit : i = t
      · rw [if_pos hit] at hq; exact TS.noConfusion hq
      · rw [if_neg hit] at hq
        exact inv.prPos i idx pr hq
    · intro h1 h2
      dsimp only at h1 h2
      rw [hwf] at h1; cases h1
    · exact transQ s.ths ht _ rfl inv.invH
    · intro i hq
      dsimp only at hq ⊢
      rw [ListCnt.getD_set_eq_ite s.ths t ht _ TS.rDone i] at hq
      by_cases hit : i = t
      · rw [if_pos hit] at hq; exact TS.noConfusion hq
      · rw [if_neg hit] at hq
        exact inv.clearI i hq

theorem step_rReset (s : St) (t : Nat) (inv : Inv s)
    (hgd : s.ths.getD t TS.rDone = TS.rReset) : Inv (applyStep s t) := by
  have ht : t < s.ths.length := ListCnt.getD_lt _ _ _ _ hgd (by intro h; cases h)
  have hg : s.ths.get ⟨t, ht⟩ = TS.rReset := by
    rw [← ListCnt.getD_eq_get s.ths TS.rDone t ht]; exact hgd
  simp only [applyStep, hgd]
  by_cases hrs : s.readSlots = 0
  · rw [if_pos hrs]
    have same : ∀ P : TS → Bool, P TS.rReset = P TS.rLoad →
        (s.ths.set t TS.rLoad).countP P = s.ths.countP P := fun P hP =>
      ListCnt.countP_set_same P _ t _ ht (by rw [hg]; exact hP)
    have hacti : s.ths.countP isActR = (s.ths.set t TS.rLoad).countP isActR + 1 :=
      ListCnt.countP_set_decr _ _ t _ ht (by rw [hg]; rfl) rfl
    have hregi : (s.ths.set t TS.rLoad).countP isRegR = s.ths.countP isRegR + 1 :=
      ListCnt.countP_set_incr _ _ t _ ht (by rw [hg]; rfl) rfl
    have har1 : 1 ≤ s.activeReaders := by
      rw [inv.arC]
      exact cnt_pos_getD s.ths t isActR TS.rReset hgd rfl rfl
    refine ⟨inv.mwl1, ?_, ?_, ?_, ?_, ?_, ?_, ?_, inv.wsC, inv.admZ, inv.psB,
      inv.nwSetup, inv.nwPre, ?_, ?_, ?_, ?_, ?_, ?_, ?_, ?_, ?_, inv.slotC,
      ?_, ?_, inv.dropP, ?_⟩
    · dsimp only
      have := inv.prC
      omega
    · dsimp only
      have := inv.arC
      omega
    · dsimp only
      rw [same isRegW rfl, ← inv.pwC]
    · intro hw
      dsimp only at hw ⊢
      rw [same isPhaseW rfl]
      exact inv.openC hw
    · dsimp only
      rw [same isInitRole rfl]; exact inv.initU
    · dsimp only
      rw [same isWClear rfl]; exact inv.clearU
    · dsimp only
      rw [same isAdmW rfl]; exact inv.admC
    · exact transQ s.ths ht _ rfl inv.preZero
    · exact transQ s.ths ht _ rfl inv.preSet
    · exact transQ s.ths ht _ rfl inv.postSet
    · intro i sz hq
      dsimp only at hq
      rw [ListCnt.getD_set_eq_ite s.ths t ht _ TS.rDone i] at hq
      by_cases hit : i = t
      · rw [if_pos hit] at hq
        rcases hq with hq | hq <;> exact TS.noConfusion hq
      · rw [if_neg hit] at hq
        exact inv.szB i sz hq
    · intro i sz hq
      dsimp only at hq ⊢
      rw [ListCnt.getD_set_eq_ite s.ths t ht _ TS.rDone i] at hq
      by_cases hit : i = t
      · rw [if_pos hit] at hq; exact TS.noConfusion hq
      · rw [if_neg hit] at hq
        exact inv.szLink i sz hq
    · intro i hq
      dsimp only at hq ⊢
      rw [ListCnt.getD_set_eq_ite s.ths t ht _ TS.rDone i] at hq ⊢
      by_cases hit : i = t
      · rw [if_pos hit] at hq; cases hq
      · rw [if_neg hit] at hq ⊢
        exact inv.folIdx i hq
    · exact transQ s.ths ht _ rfl inv.instZ
    · exact transQ s.ths ht _ rfl inv.drainF
    · intro i idx pr hq
      dsimp only at hq
      rw [ListCnt.getD_set_eq_ite s.ths t ht _ TS.rDone i] at hq
      by_cases hit : i = t
      · rw [if_pos hit] at hq; exact TS.noConfusion hq
      · rw [if_neg hit] at hq
        exact inv.prPos i idx pr hq
    · intro h1 h2
      dsimp only at h1 h2 ⊢
      rw [same isRHold rfl]
      exact inv.invA h1 h2
    · exact transQ s.ths ht _ rfl inv.invH
    · intro i hq
      dsimp only at hq ⊢
      rw [ListCnt.getD_set_eq_ite s.ths t ht _ TS.rDone i] at hq
      by_cases hit : i = t
      · rw [if_pos hit] at hq; exact TS.noConfusion hq
      · rw [if_neg hit] at hq
        exact inv.clearI i hq
  · rw [if_neg hrs]
    have hiw : s.isWriting = true := by
      cases hW : s.isWriting
      · exact absurd (inv.openC hW).2.2.2 hrs
      · rfl
    have same : ∀ P : TS → Bool, P TS.rReset = P TS.rHold →
        (s.ths.set t TS.rHold).countP P = s.ths.countP P := fun P hP =>
      ListCnt.countP_set_same P _ t _ ht (by rw [hg]; exact hP)
    refine ⟨inv.mwl1, ?_, ?_, ?_, ?_, ?_, ?_, ?_, inv.wsC, inv.admZ, inv.psB,
      inv.nwSetup, inv.nwPre, ?_, ?_, ?_, ?_, ?_, ?_, ?_, ?_, ?_, ?_,
      ?_, ?_, inv.dropP, ?_⟩
    · dsimp only
      rw [same isRegR rfl, ← inv.prC]
    · dsimp only
      rw [same isActR rfl, ← inv.arC]
    · dsimp only
      rw [same isRegW rfl, ← inv.pwC]
    · intro hw
      dsimp only at hw
      rw [hiw] at hw; cases hw
    · dsimp only
      rw [same isInitRole rfl]; exact inv.initU
    · dsimp only
      rw [same isWClear rfl]; exact inv.clearU
    · dsimp only
      rw [same isAdmW rfl]; exact inv.admC
    · exact transQ s.ths ht _ rfl inv.preZero
    · exact transQ s.ths ht _ rfl inv.preSet
    · exact transQ s.ths ht _ rfl inv.postSet
    · intro i sz hq
      dsimp only at hq
      rw [ListCnt.getD_set_eq_ite s.ths t ht _ TS.rDone i] at hq
      by_cases hit : i = t
      · rw [if_pos hit] at hq
        rcases hq with hq | hq <;> exact TS.noConfusion hq
      · rw [if_neg hit] at hq
        exact inv.szB i sz hq
    · intro i sz hq
      dsimp only at hq ⊢
      rw [ListCnt.getD_set_eq_ite s.ths t ht _ TS.rDone i] at hq
      by_cases hit : i = t
      · rw [if_pos hit] at hq; exact TS.noConfusion hq
      · rw [if_neg hit] at hq
        exact inv.szLink i sz hq
    · intro i hq
      dsimp only at hq ⊢
      rw [ListCnt.getD_set_eq_ite s.ths t ht _ TS.rDone i] at hq ⊢
      by_cases hit : i = t
      · rw [if_pos hit] at hq; cases hq
      · rw [if_neg hit] at hq ⊢
        exact inv.folIdx i hq
    · intro i hq
      dsimp only at hq
      rw [ListCnt.getD_set_eq_ite s.ths t ht _ TS.rDone i] at hq
      by_cases hit : i = t
      · rw [if_pos hit] at hq; cases hq
      · rw [if_neg hit] at hq
        exact absurd (inv.instZ i hq).1 hrs
    · exact transQ s.ths ht _ rfl inv.drainF
    · intro i idx pr hq
      dsimp only at hq
      rw [ListCnt.getD_set_eq_ite s.ths t ht _ TS.rDone i] at hq
      by_cases hit : i = t
      · rw [if_pos hit] at hq; exact TS.noConfusion hq
      · rw [if_neg hit] at hq
        exact inv.prPos i idx pr hq
    · dsimp only
      have := inv.slotC
      omega
    · intro h1 h2
      dsimp only at h1 h2
      exact absurd (inv.invA h1 h2).1 hrs
    · exact transQ s.ths ht _ rfl inv.invH
    · intro i hq
      dsimp only at hq ⊢
      rw [ListCnt.getD_set_eq_ite s.ths t ht _ TS.rDone i] at hq
      by_cases hit : i = t
      · rw [if_pos hit] at hq; exact TS.noConfusion hq
      · rw [if_neg hit] at hq
        exact inv.clearI i hq

theorem step_rHold (s : St) (t : Nat) (inv : Inv s)
    (hgd : s.ths.getD t TS.rDone = TS.rHold) : Inv (applyStep s t) := by
  have ht : t < s.ths.length := ListCnt.getD_lt _ _ _ _ hgd (by intro h; cases h)
  have hg : s.ths.get ⟨t, ht⟩ = TS.rHold := by
    rw [← ListCnt.getD_eq_get s.ths TS.rDone t ht]; exact hgd
  simp only [applyStep, hgd]
  have same : ∀ P : TS → Bool, P TS.rHold = P TS.rDone →
      (s.ths.set t TS.rDone).countP P = s.ths.countP P := fun P hP =>
    ListCnt.countP_set_same P _ t _ ht (by rw [hg]; exact hP)
  have hacti : s.ths.countP isActR = (s.ths.set t TS.rDone).countP isActR + 1 :=
    ListCnt.countP_set_decr _ _ t _ ht (by rw [hg]; rfl) rfl
  have har1 : 1 ≤ s.activeReaders := by
    rw [inv.arC]
    exact cnt_pos_getD s.ths t isActR TS.rHold hgd rfl rfl
  have hHold1 : 1 ≤ s.ths.countP isRHold :=
    cnt_pos_getD s.ths t isRHold TS.rHold hgd rfl rfl
  refine ⟨inv.mwl1, ?_, ?_, ?_, ?_, ?_, ?_, ?_, inv.wsC, inv.admZ, inv.psB,
    inv.nwSetup, inv.nwPre, ?_, ?_, ?_, ?_, ?_, ?_, ?_, ?_, ?_, inv.slotC,
    ?_, ?_, inv.dropP, ?_⟩
  · dsimp only
    rw [same isRegR rfl, ← inv.prC]
  · dsimp only
    have := inv.arC
    omega
  · dsimp only
    rw [same isRegW rfl, ← inv.pwC]
  · intro hw
    dsimp only at hw ⊢
    rw [same isPhaseW rfl]
    exact inv.openC hw
  · dsimp only
    rw [same isInitRole rfl]; exact inv.initU
  · dsimp only
    rw [same isWClear rfl]; exact inv.clearU
  · dsimp only
    rw [same isAdmW rfl]; exact inv.admC
  · exact transQ s.ths ht _ rfl inv.preZero
  · exact transQ s.ths ht _ rfl inv.preSet
  · exact transQ s.ths ht _ rfl inv.postSet
  · intro i sz hq
    dsimp only at hq
    rw [ListCnt.getD_set_eq_ite s.ths t ht _ TS.rDone i] at hq
    by_cases hit : i = t
    · rw [if_pos hit] at hq
      rcases hq with hq | hq <;> exact TS.noConfusion hq
    · rw [if_neg hit] at hq
      exact inv.szB i sz hq
  · intro i sz hq
    dsimp only at hq ⊢
    rw [ListCnt.getD_set_eq_ite s.ths t ht _ TS.rDone i] at hq
    by_cases hit : i = t
    · rw [if_pos hit] at hq; exact TS.noConfusion hq
    · rw [if_neg hit] at hq
      exact inv.szLink i sz hq
  · intro i hq
    dsimp only at hq ⊢
    rw [ListCnt.getD_set_eq_ite s.ths t ht _ TS.rDone i] at hq ⊢
    by_cases hit : i = t
    · rw [if_pos hit] at hq; cases hq
    · rw [if_neg hit] at hq ⊢
      exact inv.folIdx i hq
  · exact transQ s.ths ht _ rfl inv.instZ
  · exact transQ s.ths ht _ rfl inv.drainF
  · intro i idx pr hq
    dsimp only at hq
    rw [ListCnt.getD_set_eq_ite s.ths t ht _ TS.rDone i] at hq
    by_cases hit : i = t
    · rw [if_pos hit] at hq; exact TS.noConfusion hq
    · rw [if_neg hit] at hq
      exact inv.prPos i idx pr hq
  · intro h1 h2
    dsimp only at h1 h2
    exfalso
    have hA := inv.invA h1 h2
    omega
  · exact transQ s.ths ht _ rfl inv.invH
  · intro i hq
    dsimp only at hq ⊢
    rw [ListCnt.getD_set_eq_ite s.ths t ht _ TS.rDone i] at hq
    by_cases hit : i = t
    · rw [if_pos hit] at hq; exact TS.noConfusion hq
    · rw [if_neg hit] at hq
      exact inv.clearI i hq

theorem phase_of_admW : ∀ x, isAdmW x = true → isPhaseW x = true := by
  intro x h; cases x <;> first | rfl | cases h

theorem phase_of_initRole : ∀ x, isInitRole x = true → isPhaseW x = true := by
  intro x h; cases x <;> first | rfl | cases h

theorem phase_of_fol : ∀ x, isFol x = true → isPhaseW x = true := by
  intro x h; cases x <;> first | rfl | cases h

theorem phase_of_postSetup : ∀ x, isPostSetup x = true → isPhaseW x = true := by
  intro x h; cases x <;> first | rfl | cases h

theorem phase_of_wHold : ∀ x, isWHold x = true → isPhaseW x = true := by
  intro x h; cases x <;> first | rfl | cases h

theorem phase_of_wClear : ∀ x, isWClear x = true → isPhaseW x = true := by
  intro x h; cases x <;> first | rfl | cases h

theorem step_wStart (s : St) (t : Nat) (inv : Inv s)
    (hgd : s.ths.getD t TS.rDone = TS.wStart) : Inv (applyStep s t) := by
  have ht : t < s.ths.length := ListCnt.getD_lt _ _ _ _ hgd (by intro h; cases h)
  have hg : s.ths.get ⟨t, ht⟩ = TS.wStart := by
    rw [← ListCnt.getD_eq_get s.ths TS.rDone t ht]; exact hgd
  simp only [applyStep, hgd]
  have same : ∀ P : TS → Bool, P TS.wStart = P TS.wLoad →
      (s.ths.set t TS.wLoad).countP P = s.ths.countP P := fun P hP =>
    ListCnt.countP_set_same P _ t _ ht (by rw [hg]; exact hP)
  have hregw : (s.ths.set t TS.wLoad).countP isRegW = s.ths.countP isRegW + 1 :=
    ListCnt.countP_set_incr _ _ t _ ht (by rw [hg]; rfl) rfl
  refine ⟨inv.mwl1, ?_, ?_, ?_, ?_, ?_, ?_, ?_, inv.wsC, inv.admZ, inv.psB,
    inv.nwSetup, inv.nwPre, ?_, ?_, ?_, ?_, ?_, ?_, ?_, ?_, ?_, inv.slotC,
    ?_, ?_, inv.dropP, ?_⟩
  · dsimp only
    rw [same isRegR rfl, ← inv.prC]
  · dsimp only
    rw [same isActR rfl, ← inv.arC]
  · dsimp only
    rw [hregw, ← inv.pwC]
  · intro hw
    dsimp only at hw ⊢
    rw [same isPhaseW rfl]
    exact inv.openC hw
  · dsimp only
    rw [same isInitRole rfl]; exact inv.initU
  · dsimp only
    rw [same isWClear rfl]; exact inv.clearU
  · dsimp only
    rw [same isAdmW rfl]; exact inv.admC
  · exact transQ s.ths ht _ rfl inv.preZero
  · exact transQ s.ths ht _ rfl inv.preSet
  · exact transQ s.ths ht _ rfl inv.postSet
  · intro i sz hq
    dsimp only at hq
    rw [ListCnt.getD_set_eq_ite s.ths t ht _ TS.rDone i] at hq
    by_cases hit : i = t
    · rw [if_pos hit] at hq
      rcases hq with hq | hq <;> exact TS.noConfusion hq
    · rw [if_neg hit] at hq
      exact inv.szB i sz hq
  · intro i sz hq
    dsimp only at hq ⊢
    rw [ListCnt.getD_set_eq_ite s.ths t ht _ TS.rDone i] at hq
    by_cases hit : i = t
    · rw [if_pos hit] at hq; exact TS.noConfusion hq
    · rw [if_neg hit] at hq
      exact inv.szLink i sz hq
  · intro i hq
    dsimp only at hq ⊢
    rw [ListCnt.getD_set_eq_ite s.ths t ht _ TS.rDone i] at hq ⊢
    by_cases hit : i = t
    · rw [if_pos hit] at hq; cases hq
    · rw [if_neg hit] at hq ⊢
      exact inv.folIdx i hq
  · exact transQ s.ths ht _ rfl inv.instZ
  · exact transQ s.ths ht _ rfl inv.drainF
  · intro i idx pr hq
    dsimp only at hq
    rw [ListCnt.getD_set_eq_ite s.ths t ht _ TS.rDone i] at hq
    by_cases hit : i = t
    · rw [if_pos hit] at hq; exact TS.noConfusion hq
    · rw [if_neg hit] at hq
      exact inv.prPos i idx pr hq
  · intro h1 h2
    dsimp only at h1 h2 ⊢
    rw [same isRHold rfl]
    exact inv.invA h1 h2
  · exact transQ s.ths ht _ rfl inv.invH
  · intro i hq
    dsimp only at hq ⊢
    rw [ListCnt.getD_set_eq_ite s.ths t ht _ TS.rDone i] at hq
    by_cases hit : i = t
    · rw [if_pos hit] at hq; exact TS.noConfusion hq
    · rw [if_neg hit] at hq
      exact inv.clearI i hq

theorem step_wLoad (s : St) (t : Nat) (inv : Inv s)
    (hgd : s.ths.getD t TS.rDone = TS.wLoad) : Inv (applyStep s t) := by
  have ht : t < s.ths.length := ListCnt.getD_lt _ _ _ _ hgd (by intro h; cases h)
  have hg : s.ths.get ⟨t, ht⟩ = TS.wLoad := by
    rw [← ListCnt.getD_eq_get s.ths TS.rDone t ht]; exact hgd
  simp only [applyStep, hgd]
  by_cases hw : s.isWriting = true
  · rw [if_pos hw]
    exact inv_pc_pure s t inv ht _ _ hg rfl rfl rfl rfl rfl rfl rfl rfl rfl rfl
      rfl rfl rfl rfl rfl (fun _ h => TS.noConfusion h) (fun _ h => TS.noConfusion h)
      (fun _ _ h => TS.noConfusion h) (fun h => TS.noConfusion h)
  · rw [if_neg hw]
    exact inv_pc_pure s t inv ht _ _ hg rfl rfl rfl rfl rfl rfl rfl rfl rfl rfl
      rfl rfl rfl rfl rfl (fun _ h => TS.noConfusion h) (fun _ h => TS.noConfusion h)
      (fun _ _ h => TS.noConfusion h) (fun h => TS.noConfusion h)

theorem step_wTrySlot (s : St) (t : Nat) (inv : Inv s)
    (hgd : s.ths.getD t TS.rDone = TS.wTrySlot) : Inv (applyStep s t) := by
  have ht : t < s.ths.length := ListCnt.getD_lt _ _ _ _ hgd (by intro h; cases h)
  have hg : s.ths.get ⟨t, ht⟩ = TS.wTrySlot := by
    rw [← ListCnt.getD_eq_get s.ths TS.rDone t ht]; exact hgd
  simp only [applyStep, hgd]
  by_cases hws : s.writeSlots = 0
  · rw [if_pos hws]
    exact inv_pc_pure s t inv ht _ _ hg rfl rfl rfl rfl rfl rfl rfl rfl rfl rfl
      rfl rfl rfl rfl rfl (fun _ h => TS.noConfusion h) (fun _ h => TS.noConfusion h)
      (fun _ _ h => TS.noConfusion h) (fun h => TS.noConfusion h)
  · rw [if_neg hws]
    have hiw : s.isWriting = true := by
      cases hW : s.isWriting
      · exact absurd (inv.openC hW).2.1 hws
      · rfl
    have hadm1 : 1 ≤ s.gAdm := by
      cases hA : s.gAdm
      · exact absurd (inv.admZ hA) hws
      · omega
    have same : ∀ P : TS → Bool, P TS.wTrySlot = P (TS.wDec s.writeSlots false) →
        (s.ths.set t (TS.wDec s.writeSlots false)).countP P = s.ths.countP P := fun P hP =>
      ListCnt.countP_set_same P _ t _ ht (by rw [hg]; exact hP)
    have hadmi : (s.ths.set t (TS.wDec s.writeSlots false)).countP isAdmW
        = s.ths.countP isAdmW + 1 :=
      ListCnt.countP_set_incr _ _ t _ ht (by rw [hg]; rfl) rfl
    refine ⟨inv.mwl1, ?_, ?_, ?_, ?_, ?_, ?_, ?_, ?_, ?_, inv.psB,
      inv.nwSetup, inv.nwPre, ?_, ?_, ?_, ?_, ?_, ?_, ?_, ?_, ?_, inv.slotC,
      ?_, ?_, inv.dropP, ?_⟩
    · dsimp only
      rw [same isRegR rfl, ← inv.prC]
    · dsimp only
      rw [same isActR rfl, ← inv.arC]
    · dsimp only
      rw [same isRegW rfl, ← inv.pwC]
    · intro hw
      dsimp only at hw
      rw [hiw] at hw; cases hw
    · dsimp only
      rw [same isInitRole rfl]; exact inv.initU
    · dsimp only
      rw [same isWClear rfl]; exact inv.clearU
    · dsimp only
      rw [hadmi]
      have := inv.admC
      omega
    · dsimp only
      have := inv.wsC
      omega
    · dsimp only
      intro h
      omega
    · intro i hq
      dsimp only at hq ⊢
      rw [ListCnt.getD_set_eq_ite s.ths t ht _ TS.rDone i] at hq
      by_cases hit : i = t
      · rw [if_pos hit] at hq; cases hq
      · rw [if_neg hit] at hq
        exact absurd (inv.preZero i hq).1 hws
    · exact transQ s.ths ht _ rfl inv.preSet
    · exact transQ s.ths ht _ rfl inv.postSet
    · intro i sz hq
      dsimp only at hq
      rw [ListCnt.getD_set_eq_ite s.ths t ht _ TS.rDone i] at hq
      by_cases hit : i = t
      · rw [if_pos hit] at hq
        rcases hq with hq | hq <;> exact TS.noConfusion hq
      · rw [if_neg hit] at hq
        exact inv.szB i sz hq
    · intro i sz hq
      dsimp only at hq ⊢
      rw [ListCnt.getD_set_eq_ite s.ths t ht _ TS.rDone i] at hq
      by_cases hit : i = t
      · rw [if_pos hit] at hq; exact TS.noConfusion hq
      · rw [if_neg hit] at hq
        exact inv.szLink i sz hq
    · intro i hq
      dsimp only at hq ⊢
      rw [ListCnt.getD_set_eq_ite s.ths t ht _ TS.rDone i] at hq ⊢
      by_cases hit : i = t
      · rw [if_pos hit]
        have hwsC := inv.wsC
        constructor
        · show 1 ≤ s.writeSlots
          omega
        · show s.writeSlots + 1 ≤ s.gPS
          omega
      · rw [if_neg hit] at hq ⊢
        exact inv.folIdx i hq
    · exact transQ s.ths ht _ rfl inv.instZ
    · exact transQ s.ths ht _ rfl inv.drainF
    · intro i idx pr hq
      dsimp only at hq
      rw [ListCnt.getD_set_eq_ite s.ths t ht _ TS.rDone i] at hq
      by_cases hit : i = t
      · rw [if_pos hit] at hq; exact TS.noConfusion hq
      · rw [if_neg hit] at hq
        exact inv.prPos i idx pr hq
    · intro h1 h2
      dsimp only at h1 h2 ⊢
      rw [same isRHold rfl]
      exact inv.invA h1 h2
    · exact transQ s.ths ht _ rfl inv.invH
    · intro i hq
      dsimp only at hq ⊢
      rw [ListCnt.getD_set_eq_ite s.ths t ht _ TS.rDone i] at hq
      by_cases hit : i = t
      · rw [if_pos hit] at hq; exact TS.noConfusion hq
      · rw [if_neg hit] at hq
        exact inv.clearI i hq

theorem step_wSwap (s : St) (t : Nat) (inv : Inv s)
    (hgd : s.ths.getD t TS.rDone = TS.wSwap) : Inv (applyStep s t) := by
  have ht : t < s.ths.length := ListCnt.getD_lt _ _ _ _ hgd (by intro h; cases h)
  have hg : s.ths.get ⟨t, ht⟩ = TS.wSwap := by
    rw [← ListCnt.getD_eq_get s.ths TS.rDone t ht]; exact hgd
  simp only [applyStep, hgd]
  by_cases hw : s.isWriting = true
  · rw [if_pos hw]
    exact inv_pc_pure s t inv ht _ _ hg rfl rfl rfl rfl rfl rfl rfl rfl rfl rfl
      rfl rfl rfl rfl rfl (fun _ h => TS.noConfusion h) (fun _ h => TS.noConfusion h)
      (fun _ _ h => TS.noConfusion h) (fun h => TS.noConfusion h)
  · rw [if_neg hw]
    have hwf : s.isWriting = false := by
      cases hW : s.isWriting
      · rfl
      · exact absurd hW hw
    obtain ⟨hph, hws0, hnw0, hrs0⟩ := inv.openC hwf
    have hnone : ∀ i, isPhaseW (s.ths.getD i TS.rDone) = false :=
      ListCnt.all_of_countP_zero isPhaseW s.ths TS.rDone rfl hph
    have same : ∀ P : TS → Bool, P TS.wSwap = P TS.wSnapPW →
        (s.ths.set t TS.wSnapPW).countP P = s.ths.countP P := fun P hP =>
      ListCnt.countP_set_same P _ t _ ht (by rw [hg]; exact hP)
    have hadm0 : s.ths.countP isAdmW = 0 := by
      have := ListCnt.countP_mono isAdmW isPhaseW s.ths phase_of_admW
      omega
    have hinit0 : s.ths.countP isInitRole = 0 := by
      have := ListCnt.countP_mono isInitRole isPhaseW s.ths phase_of_initRole
      omega
    refine ⟨inv.mwl1, ?_, ?_, ?_, ?_, ?_, ?_, ?_, ?_, ?_, ?_,
      ?_, ?_, ?_, ?_, ?_, ?_, ?_, ?_, ?_, ?_, ?_, ?_, ?_, ?_, ?_, ?_⟩
    · dsimp only
      rw [same isRegR rfl, ← inv.prC]
    · dsimp only
      rw [same isActR rfl, ← inv.arC]
    · dsimp only
      rw [same isRegW rfl, ← inv.pwC]
    · intro hw2
      dsimp only at hw2
      cases hw2
    · dsimp only
      have : (s.ths.set t TS.wSnapPW).countP isInitRole = s.ths.countP isInitRole + 1 :=
        ListCnt.countP_set_incr _ _ t _ ht (by rw [hg]; rfl) rfl
      omega
    · dsimp only
      rw [same isWClear rfl]
      exact inv.clearU
    · dsimp only
      rw [same isAdmW rfl, hadm0]
    · dsimp only
      omega
    · dsimp only
      intro _
      exact hws0
    · dsimp only
      exact Nat.zero_le _
    · dsimp only
      intro h
      cases h
    · dsimp only
      intro _ _
      exact ⟨hnw0, rfl⟩
    · intro i _
      exact ⟨hws0, rfl, rfl, rfl⟩
    · intro i _
      rfl
    · intro i hq
      dsimp only at hq
      rw [ListCnt.getD_set_eq_ite s.ths t ht _ TS.rDone i] at hq
      by_cases hit : i = t
      · rw [if_pos hit] at hq; cases hq
      · rw [if_neg hit] at hq
        exfalso
        have := phase_of_postSetup _ hq
        rw [hnone i] at this; cases this
    · intro i sz hq
      dsimp only at hq ⊢
      rw [ListCnt.getD_set_eq_ite s.ths t ht _ TS.rDone i] at hq
      by_cases hit : i = t
      · rw [if_pos hit] at hq
        rcases hq with hq | hq <;> exact TS.noConfusion hq
      · rw [if_neg hit] at hq
        exact inv.szB i sz hq
    · intro i sz hq
      dsimp only at hq ⊢
      rw [ListCnt.getD_set_eq_ite s.ths t ht _ TS.rDone i] at hq
      by_cases hit : i = t
      · rw [if_pos hit] at hq; exact TS.noConfusion hq
      · rw [if_neg hit] at hq
        exfalso
        have : isPhaseW (s.ths.getD i TS.rDone) = true := by
          rw [hq]; rfl
        rw [hnone i] at this; cases this
    · intro i hq
      dsimp only at hq ⊢
      rw [ListCnt.getD_set_eq_ite s.ths t ht _ TS.rDone i] at hq
      by_cases hit : i = t
      · rw [if_pos hit] at hq; cases hq
      · rw [if_neg hit] at hq
        exfalso
        have := phase_of_fol _ hq
        rw [hnone i] at this; cases this
    · intro i _
      exact ⟨hrs0, rfl, rfl⟩
    · intro i _
      rfl
    · intro i idx pr hq
      dsimp only at hq
      rw [ListCnt.getD_set_eq_ite s.ths t ht _ TS.rDone i] at hq
      by_cases hit : i = t
      · rw [if_pos hit] at hq; exact TS.noConfusion hq
      · rw [if_neg hit] at hq
        exact inv.prPos i idx pr hq
    · dsimp only
      omega
    · intro _ h2
      dsimp only at h2
      cases h2
    · intro i hq
      dsimp only at hq
      rw [ListCnt.getD_set_eq_ite s.ths t ht _ TS.rDone i] at hq
      by_cases hit : i = t
      · rw [if_pos hit] at hq; cases hq
      · rw [if_neg hit] at hq
        exfalso
        have := phase_of_wHold _ hq
        rw [hnone i] at this; cases this
    · dsimp only
      intro h
      omega
    · intro i hq
      dsimp only at hq
      rw [ListCnt.getD_set_eq_ite s.ths t ht _ TS.rDone i] at hq
      by_cases hit : i = t
      · rw [if_pos hit] at hq; exact TS.noConfusion hq
      · rw [if_neg hit] at hq
        exfalso
        have : isPhaseW (s.ths.getD i TS.rDone) = true := by
          rw [hq]; rfl
        rw [hnone i] at this; cases this

theorem initRole_of_preSlots : ∀ x, isPreSlots x = true → isInitRole x = true := by
  intro x h; cases x <;> first | rfl | cases h

theorem initRole_of_preSetup : ∀ x, isPreSetup x = true → isInitRole x = true := by
  intro x h; cases x <;> first | rfl | cases h

theorem initRole_of_preInstall : ∀ x, isPreInstall x = true → isInitRole x = true := by
  intro x h
  cases x <;> first | rfl | exact h | cases h

theorem initRole_of_preDrain : ∀ x, isPreDrain x = true → isInitRole x = true := by
  intro x h
  cases x <;> first | rfl | exact h | cases h

theorem step_wSnapPW (s : St) (t : Nat) (inv : Inv s)
    (hgd : s.ths.getD t TS.rDone = TS.wSnapPW) : Inv (applyStep s t) := by
  have ht : t < s.ths.length := ListCnt.getD_lt _ _ _ _ hgd (by intro h; cases h)
  have hg : s.ths.get ⟨t, ht⟩ = TS.wSnapPW := by
    rw [← ListCnt.getD_eq_get s.ths TS.rDone t ht]; exact hgd
  simp only [applyStep, hgd]
  have hpw1 : 1 ≤ s.pendingWriters := by
    rw [inv.pwC]
    exact cnt_pos_getD s.ths t isRegW TS.wSnapPW hgd rfl rfl
  have hszlo : 1 ≤ min s.pendingWriters s.maxWriteLine := by
    have := inv.mwl1
    omega
  have hszhi : min s.pendingWriters s.maxWriteLine ≤ s.maxWriteLine := by
    omega
  have same : ∀ P : TS → Bool,
      P TS.wSnapPW = P (TS.wStoreSlots (min s.pendingWriters s.maxWriteLine)) →
      (s.ths.set t (TS.wStoreSlots (min s.pendingWriters s.maxWriteLine))).countP P
        = s.ths.countP P := fun P hP =>
    ListCnt.countP_set_same P _ t _ ht (by rw [hg]; exact hP)
  refine ⟨inv.mwl1, ?_, ?_, ?_, ?_, ?_, ?_, ?_, inv.wsC, inv.admZ, inv.psB,
    inv.nwSetup, inv.nwPre, ?_, ?_, ?_, ?_, ?_, ?_, ?_, ?_, ?_, inv.slotC,
    ?_, ?_, inv.dropP, ?_⟩
  · dsimp only
    rw [same isRegR rfl, ← inv.prC]
  · dsimp only
    rw [same isActR rfl, ← inv.arC]
  · dsimp only
    rw [same isRegW rfl, ← inv.pwC]
  · intro hw
    dsimp only at hw ⊢
    rw [same isPhaseW rfl]
    exact inv.openC hw
  · dsimp only
    rw [same isInitRole rfl]; exact inv.initU
  · dsimp only
    rw [same isWClear rfl]; exact inv.clearU
  · dsimp only
    rw [same isAdmW rfl]; exact inv.admC
  · exact transQ' s.ths ht _ _ hgd (fun _ => rfl) inv.preZero
  · exact transQ' s.ths ht _ _ hgd (fun _ => rfl) inv.preSet
  · exact transQ s.ths ht _ rfl inv.postSet
  · intro i sz hq
    dsimp only at hq ⊢
    rw [ListCnt.getD_set_eq_ite s.ths t ht _ TS.rDone i] at hq
    by_cases hit : i = t
    · rw [if_pos hit] at hq
      rcases hq with hq | hq
      · cases hq
        exact ⟨hszlo, hszhi⟩
      · exact TS.noConfusion hq
    · rw [if_neg hit] at hq
      exact inv.szB i sz hq
  · intro i sz hq
    dsimp only at hq ⊢
    rw [ListCnt.getD_set_eq_ite s.ths t ht _ TS.rDone i] at hq
    by_cases hit : i = t
    · rw [if_pos hit] at hq; exact TS.noConfusion hq
    · rw [if_neg hit] at hq
      exact inv.szLink i sz hq
  · intro i hq
    dsimp only at hq ⊢
    rw [ListCnt.getD_set_eq_ite s.ths t ht _ TS.rDone i] at hq ⊢
    by_cases hit : i = t
    · rw [if_pos hit] at hq; cases hq
    · rw [if_neg hit] at hq ⊢
      exact inv.folIdx i hq
  · exact transQ' s.ths ht _ _ hgd (fun _ => rfl) inv.instZ
  · exact transQ' s.ths ht _ _ hgd (fun _ => rfl) inv.drainF
  · intro i idx pr hq
    dsimp only at hq
    rw [ListCnt.getD_set_eq_ite s.ths t ht _ TS.rDone i] at hq
    by_cases hit : i = t
    · rw [if_pos hit] at hq; exact TS.noConfusion hq
    · rw [if_neg hit] at hq
      exact inv.prPos i idx pr hq
  · intro h1 h2
    dsimp only at h1 h2 ⊢
    rw [same isRHold rfl]
    exact inv.invA h1 h2
  · exact transQ s.ths ht _ rfl inv.invH
  · intro i hq
    dsimp only at hq ⊢
    rw [ListCnt.getD_set_eq_ite s.ths t ht _ TS.rDone i] at hq
    by_cases hit : i = t
    · rw [if_pos hit] at hq; exact TS.noConfusion hq
    · rw [if_neg hit] at hq
      exact inv.clearI i hq

theorem step_wStoreSlots (s : St) (t : Nat) (sz : Nat) (inv : Inv s)
    (hgd : s.ths.getD t TS.rDone = TS.wStoreSlots sz) : Inv (applyStep s t) := by
  have ht : t < s.ths.length := ListCnt.getD_lt _ _ _ _ hgd (by intro h; cases h)
  have hg : s.ths.get ⟨t, ht⟩ = TS.wStoreSlots sz := by
    rw [← ListCnt.getD_eq_get s.ths TS.rDone t ht]; exact hgd
  simp only [applyStep, hgd]
  obtain ⟨hws0, hgAdm0, hgDrop0, hgPS0⟩ := inv.preZero t (by rw [hgd]; rfl)
  have hgSetF : s.gSetup = false := inv.preSet t (by rw [hgd]; rfl)
  have hiw : s.isWriting = true := iw_of_phase s inv t (by rw [hgd]; rfl)
  obtain ⟨hnw0, _⟩ := inv.nwPre hgSetF hiw
  have hgDr : s.gDrained = false := inv.drainF t (by rw [hgd]; rfl)
  obtain ⟨hsz1, hszm⟩ := inv.szB t sz (Or.inl hgd)
  have hadm0 : s.ths.countP isAdmW = 0 := by
    have := inv.admC
    omega
  obtain ⟨hrs0, hgI0, hgSA0⟩ := inv.instZ t (by rw [hgd]; rfl)
  have hothers := unique_other s.ths isInitRole rfl inv.initU t ht (by rw [hg]; rfl)
  have same : ∀ P : TS → Bool, P (TS.wStoreSlots sz) = P (TS.wStoreNext sz) →
      (s.ths.set t (TS.wStoreNext sz)).countP P = s.ths.countP P := fun P hP =>
    ListCnt.countP_set_same P _ t _ ht (by rw [hg]; exact hP)
  have hadmi : (s.ths.set t (TS.wStoreNext sz)).countP isAdmW
      = s.ths.countP isAdmW + 1 :=
    ListCnt.countP_set_incr _ _ t _ ht (by rw [hg]; rfl) rfl
  refine ⟨inv.mwl1, ?_, ?_, ?_, ?_, ?_, ?_, ?_, ?_, ?_, ?_,
    ?_, ?_, ?_, ?_, ?_, ?_, ?_, ?_, ?_, ?_, ?_, ?_, ?_, ?_, ?_, ?_⟩
  · dsimp only
    rw [same isRegR rfl, ← inv.prC]
  · dsimp only
    rw [same isActR rfl, ← inv.arC]
  · dsimp only
    rw [same isRegW rfl, ← inv.pwC]
  · intro hw
    dsimp only at hw
    rw [hiw] at hw; cases hw
  · dsimp only
    rw [same isInitRole rfl]; exact inv.initU
  · dsimp only
    rw [same isWClear rfl]; exact inv.clearU
  · dsimp only
    rw [hadmi, hadm0]
    omega
  · dsimp only
    omega
  · dsimp only
    intro h
    omega
  · dsimp only
    exact hszm
  · dsimp only
    intro h
    rw [hgSetF] at h; cases h
  · dsimp only
    intro _ _
    exact ⟨hnw0, hgDrop0⟩
  · intro i hq
    dsimp only at hq
    rw [ListCnt.getD_set_eq_ite s.ths t ht _ TS.rDone i] at hq
    by_cases hit : i = t
    · rw [if_pos hit] at hq; cases hq
    · rw [if_neg hit] at hq
      exfalso
      have := initRole_of_preSlots _ hq
      rw [hothers i hit] at this; cases this
  · intro i _
    exact hgSetF
  · intro i hq
    dsimp only at hq
    rw [ListCnt.getD_set_eq_ite s.ths t ht _ TS.rDone i] at hq
    by_cases hit : i = t
    · rw [if_pos hit] at hq; cases hq
    · rw [if_neg hit] at hq
      exfalso
      have := inv.postSet i hq
      rw [hgSetF] at this; cases this
  · intro i sz2 hq
    dsimp only at hq ⊢
    rw [ListCnt.getD_set_eq_ite s.ths t ht _ TS.rDone i] at hq
    by_cases hit : i = t
    · rw [if_pos hit] at hq
      rcases hq with hq | hq
      · exact TS.noConfusion hq
      · cases hq
        exact ⟨hsz1, hszm⟩
    · rw [if_neg hit] at hq
      exact inv.szB i sz2 hq
  · intro i sz2 hq
    dsimp only at hq ⊢
    rw [ListCnt.getD_set_eq_ite s.ths t ht _ TS.rDone i] at hq
    by_cases hit : i = t
    · rw [if_pos hit] at hq
      cases hq
      rfl
    · rw [if_neg hit] at hq
      exfalso
      have : isInitRole (s.ths.getD i TS.rDone) = true := by
        rw [hq]; rfl
      rw [hothers i hit] at this; cases this
  · intro i hq
    dsimp only at hq ⊢
    rw [ListCnt.getD_set_eq_ite s.ths t ht _ TS.rDone i] at hq ⊢
    by_cases hit : i = t
    · rw [if_pos hit] at hq; cases hq
    · rw [if_neg hit] at hq ⊢
      exfalso
      have := inv.folIdx i hq
      omega
  · intro i _
    exact ⟨hrs0, hgI0, hgSA0⟩
  · intro i _
    exact hgDr
  · intro i idx pr hq
    dsimp only at hq
    rw [ListCnt.getD_set_eq_ite s.ths t ht _ TS.rDone i] at hq
    by_cases hit : i = t
    · rw [if_pos hit] at hq; exact TS.noConfusion hq
    · rw [if_neg hit] at hq
      exact inv.prPos i idx pr hq
  · dsimp only
    exact inv.slotC
  · intro _ h2
    dsimp only at h2
    rw [hgDr] at h2; cases h2
  · intro i hq
    dsimp only at hq
    rw [ListCnt.getD_set_eq_ite s.ths t ht _ TS.rDone i] at hq
    by_cases hit : i = t
    · rw [if_pos hit] at hq; cases hq
    · rw [if_neg hit] at hq
      exfalso
      have := (inv.invH i hq).2
      rw [hgDr] at this; cases this
  · dsimp only
    intro h
    omega
  · intro i hq
    dsimp only at hq
    rw [ListCnt.getD_set_eq_ite s.ths t ht _ TS.rDone i] at hq
    by_cases hit : i = t
    · rw [if_pos hit] at hq; exact TS.noConfusion hq
    · rw [if_neg hit] at hq
      exfalso
      have := (inv.clearI i hq).2.2.2.1
      rw [hgSetF] at this; cases this

theorem step_wStoreNext (s : St) (t : Nat) (sz : Nat) (inv : Inv s)
    (hgd : s.ths.getD t TS.rDone = TS.wStoreNext sz) : Inv (applyStep s t) := by
  have ht : t < s.ths.length := ListCnt.getD_lt _ _ _ _ hgd (by intro h; cases h)
  have hg : s.ths.get ⟨t, ht⟩ = TS.wStoreNext sz := by
    rw [← ListCnt.getD_eq_get s.ths TS.rDone t ht]; exact hgd
  simp only [applyStep, hgd]
  have hgPS : s.gPS = sz := inv.szLink t sz hgd
  obtain ⟨hsz1, hszm⟩ := inv.szB t sz (Or.inr hgd)
  have hgSetF : s.gSetup = false := inv.preSet t (by rw [hgd]; rfl)
  have hiw : s.isWriting = true := iw_of_phase s inv t (by rw [hgd]; rfl)
  obtain ⟨hnw0, hgDrop0⟩ := inv.nwPre hgSetF hiw
  have hgDr : s.gDrained = false := inv.drainF t (by rw [hgd]; rfl)
  obtain ⟨hrs0, hgI0, hgSA0⟩ := inv.instZ t (by rw [hgd]; rfl)
  have hothers := unique_other s.ths isInitRole rfl inv.initU t ht (by rw [hg]; rfl)
  have same : ∀ P : TS → Bool, P (TS.wStoreNext sz) = P (TS.wDec sz true) →
      (s.ths.set t (TS.wDec sz true)).countP P = s.ths.countP P := fun P hP =>
    ListCnt.countP_set_same P _ t _ ht (by rw [hg]; exact hP)
  refine ⟨inv.mwl1, ?_, ?_, ?_, ?_, ?_, ?_, ?_, ?_, ?_, ?_,
    ?_, ?_, ?_, ?_, ?_, ?_, ?_, ?_, ?_, ?_, ?_, ?_, ?_, ?_, ?_, ?_⟩
  · dsimp only
    rw [same isRegR rfl, ← inv.prC]
  · dsimp only
    rw [same isActR rfl, ← inv.arC]
  · dsimp only
    rw [same isRegW rfl, ← inv.pwC]
  · intro hw
    dsimp only at hw
    rw [hiw] at hw; cases hw
  · dsimp only
    rw [same isInitRole rfl]; exact inv.initU
  · dsimp only
    rw [same isWClear rfl]; exact inv.clearU
  · dsimp only
    rw [same isAdmW rfl]; exact inv.admC
  · dsimp only
    exact inv.wsC
  · dsimp only
    exact inv.admZ
  · dsimp only
    exact inv.psB
  · dsimp only
    intro _
    omega
  · dsimp only
    intro h _
    cases h
  · intro i hq
    dsimp only at hq
    rw [ListCnt.getD_set_eq_ite s.ths t ht _ TS.rDone i] at hq
    by_cases hit : i = t
    · rw [if_pos hit] at hq; cases hq
    · rw [if_neg hit] at hq
      exfalso
      have := initRole_of_preSlots _ hq
      rw [hothers i hit] at this; cases this
  · intro i hq
    dsimp only at hq
    rw [ListCnt.getD_set_eq_ite s.ths t ht _ TS.rDone i] at hq
    by_cases hit : i = t
    · rw [if_pos hit] at hq; cases hq
    · rw [if_neg hit] at hq
      exfalso
      have := initRole_of_preSetup _ hq
      rw [hothers i hit] at this; cases this
  · intro i _
    rfl
  · intro i sz2 hq
    dsimp only at hq ⊢
    rw [ListCnt.getD_set_eq_ite s.ths t ht _ TS.rDone i] at hq
    by_cases hit : i = t
    · rw [if_pos hit] at hq
      rcases hq with hq | hq <;> exact TS.noConfusion hq
    · rw [if_neg hit] at hq
      exact inv.szB i sz2 hq
  · intro i sz2 hq
    dsimp only at hq ⊢
    rw [ListCnt.getD_set_eq_ite s.ths t ht _ TS.rDone i] at hq
    by_cases hit : i = t
    · rw [if_pos hit] at hq; exact TS.noConfusion hq
    · rw [if_neg hit] at hq
      exact inv.szLink i sz2 hq
  · intro i hq
    dsimp only at hq ⊢
    rw [ListCnt.getD_set_eq_ite s.ths t ht _ TS.rDone i] at hq ⊢
    by_cases hit : i = t
    · rw [if_pos hit] at hq
      simp only [isFol] at hq
      cases hq
    · rw [if_neg hit] at hq ⊢
      exact inv.folIdx i hq
  · exact transQ' s.ths ht _ _ hgd (fun _ => rfl) inv.instZ
  · exact transQ' s.ths ht _ _ hgd (fun _ => rfl) inv.drainF
  · intro i idx pr hq
    dsimp only at hq
    rw [ListCnt.getD_set_eq_ite s.ths t ht _ TS.rDone i] at hq
    by_cases hit : i = t
    · rw [if_pos hit] at hq; exact TS.noConfusion hq
    · rw [if_neg hit] at hq
      exact inv.prPos i idx pr hq
  · dsimp only
    exact inv.slotC
  · intro _ h2
    dsimp only at h2
    rw [hgDr] at h2; cases h2
  · intro i hq
    dsimp only at hq
    rw [ListCnt.getD_set_eq_ite s.ths t ht _ TS.rDone i] at hq
    by_cases hit : i = t
    · rw [if_pos hit] at hq; cases hq
    · rw [if_neg hit] at hq
      exfalso
      have := (inv.invH i hq).2
      rw [hgDr] at this; cases this
  · dsimp only
    intro h
    omega
  · intro i hq
    dsimp only at hq
    rw [ListCnt.getD_set_eq_ite s.ths t ht _ TS.rDone i] at hq
    by_cases hit : i = t
    · rw [if_pos hit] at hq; exact TS.noConfusion hq
    · rw [if_neg hit] at hq
      exfalso
      have := (inv.clearI i hq).2.2.2.1
      rw [hgSetF] at this; cases this

theorem step_wDec (s : St) (t : Nat) (idx : Nat) (ini : Bool) (inv : Inv s)
    (hgd : s.ths.getD t TS.rDone = TS.wDec idx ini) : Inv (applyStep s t) := by
  have ht : t < s.ths.length := ListCnt.getD_lt _ _ _ _ hgd (by intro h; cases h)
  have hg : s.ths.get ⟨t, ht⟩ = TS.wDec idx ini := by
    rw [← ListCnt.getD_eq_get s.ths TS.rDone t ht]; exact hgd
  simp only [applyStep, hgd]
  have hiw : s.isWriting = true := iw_of_phase s inv t (by rw [hgd]; rfl)
  have hpw1 : 1 ≤ s.pendingWriters := by
    rw [inv.pwC]
    exact cnt_pos_getD s.ths t isRegW (TS.wDec idx ini) hgd rfl rfl
  cases ini with
  | true =>
    rw [if_pos rfl]
    have same : ∀ P : TS → Bool, P (TS.wDec idx true) = P (TS.wSnapPR idx) →
        (s.ths.set t (TS.wSnapPR idx)).countP P = s.ths.countP P := fun P hP =>
      ListCnt.countP_set_same P _ t _ ht (by rw [hg]; exact hP)
    have hregd : s.ths.countP isRegW = (s.ths.set t (TS.wSnapPR idx)).countP isRegW + 1 :=
      ListCnt.countP_set_decr _ _ t _ ht (by rw [hg]; rfl) rfl
    refine ⟨inv.mwl1, ?_, ?_, ?_, ?_, ?_, ?_, ?_, inv.wsC, inv.admZ, inv.psB,
      inv.nwSetup, inv.nwPre, ?_, ?_, ?_, ?_, ?_, ?_, ?_, ?_, ?_, inv.slotC,
      ?_, ?_, inv.dropP, ?_⟩
    · dsimp only
      rw [same isRegR rfl, ← inv.prC]
    · dsimp only
      rw [same isActR rfl, ← inv.arC]
    · dsimp only
      have := inv.pwC
      omega
    · intro hw
      dsimp only at hw
      rw [hiw] at hw; cases hw
    · dsimp only
      rw [same isInitRole rfl]; exact inv.initU
    · dsimp only
      rw [same isWClear rfl]; exact inv.clearU
    · dsimp only
      rw [same isAdmW rfl]; exact inv.admC
    · exact transQ s.ths ht _ rfl inv.preZero
    · exact transQ s.ths ht _ rfl inv.preSet
    · exact transQ' s.ths ht _ _ hgd (fun _ => rfl) inv.postSet
    · intro i sz hq
      dsimp only at hq ⊢
      rw [ListCnt.getD_set_eq_ite s.ths t ht _ TS.rDone i] at hq
      by_cases hit : i = t
      · rw [if_pos hit] at hq
        rcases hq with hq | hq <;> exact TS.noConfusion hq
      · rw [if_neg hit] at hq
        exact inv.szB i sz hq
    · intro i sz hq
      dsimp only at hq ⊢
      rw [ListCnt.getD_set_eq_ite s.ths t ht _ TS.rDone i] at hq
      by_cases hit : i = t
      · rw [if_pos hit] at hq; exact TS.noConfusion hq
      · rw [if_neg hit] at hq
        exact inv.szLink i sz hq
    · intro i hq
      dsimp only at hq ⊢
      rw [ListCnt.getD_set_eq_ite s.ths t ht _ TS.rDone i] at hq ⊢
      by_cases hit : i = t
      · rw [if_pos hit] at hq; cases hq
      · rw [if_neg hit] at hq ⊢
        exact inv.folIdx i hq
    · exact transQ' s.ths ht _ _ hgd (fun _ => rfl) inv.instZ
    · exact transQ' s.ths ht _ _ hgd (fun _ => rfl) inv.drainF
    · intro i idx2 pr hq
      dsimp only at hq
      rw [ListCnt.getD_set_eq_ite s.ths t ht _ TS.rDone i] at hq
      by_cases hit : i = t
      · rw [if_pos hit] at hq; exact TS.noConfusion hq
      · rw [if_neg hit] at hq
        exact inv.prPos i idx2 pr hq
    · intro h1 h2
      dsimp only at h1 h2 ⊢
      rw [same isRHold rfl]
      exact inv.invA h1 h2
    · exact transQ s.ths ht _ rfl inv.invH
    · intro i hq
      dsimp only at hq ⊢
      rw [ListCnt.getD_set_eq_ite s.ths t ht _ TS.rDone i] at hq
      by_cases hit : i = t
      · rw [if_pos hit] at hq; exact TS.noConfusion hq
      · rw [if_neg hit] at hq
        exact inv.clearI i hq
  | false =>
    rw [if_neg (by intro h; cases h)]
    have same : ∀ P : TS → Bool, P (TS.wDec idx false) = P (TS.wWaitTurn idx) →
        (s.ths.set t (TS.wWaitTurn idx)).countP P = s.ths.countP P := fun P hP =>
      ListCnt.countP_set_same P _ t _ ht (by rw [hg]; exact hP)
    have hregd : s.ths.countP isRegW = (s.ths.set t (TS.wWaitTurn idx)).countP isRegW + 1 :=
      ListCnt.countP_set_decr _ _ t _ ht (by rw [hg]; rfl) rfl
    have hfolpre := inv.folIdx t (by rw [hgd]; rfl)
    rw [hgd] at hfolpre
    refine ⟨inv.mwl1, ?_, ?_, ?_, ?_, ?_, ?_, ?_, inv.wsC, inv.admZ, inv.psB,
      inv.nwSetup, inv.nwPre, ?_, ?_, ?_, ?_, ?_, ?_, ?_, ?_, ?_, inv.slotC,
      ?_, ?_, inv.dropP, ?_⟩
    · dsimp only
      rw [same isRegR rfl, ← inv.prC]
    · dsimp only
      rw [same isActR rfl, ← inv.arC]
    · dsimp only
      have := inv.pwC
      omega
    · intro hw
      dsimp only at hw
      rw [hiw] at hw; cases hw
    · dsimp only
      rw [same isInitRole rfl]; exact inv.initU
    · dsimp only
      rw [same isWClear rfl]; exact inv.clearU
    · dsimp only
      rw [same isAdmW rfl]; exact inv.admC
    · exact transQ s.ths ht _ rfl inv.preZero
    · exact transQ s.ths ht _ rfl inv.preSet
    · exact transQ s.ths ht _ rfl inv.postSet
    · intro i sz hq
      dsimp only at hq ⊢
      rw [ListCnt.getD_set_eq_ite s.ths t ht _ TS.rDone i] at hq
      by_cases hit : i = t
      · rw [if_pos hit] at hq
        rcases hq with hq | hq <;> exact TS.noConfusion hq
      · rw [if_neg hit] at hq
        exact inv.szB i sz hq
    · intro i sz hq
      dsimp only at hq ⊢
      rw [ListCnt.getD_set_eq_ite s.ths t ht _ TS.rDone i] at hq
      by_cases hit : i = t
      · rw [if_pos hit] at hq; exact TS.noConfusion hq
      · rw [if_neg hit] at hq
        exact inv.szLink i sz hq
    · intro i hq
      dsimp only at hq ⊢
      rw [ListCnt.getD_set_eq_ite s.ths t ht _ TS.rDone i] at hq ⊢
      by_cases hit : i = t
      · rw [if_pos hit]
        exact hfolpre
      · rw [if_neg hit] at hq ⊢
        exact inv.folIdx i hq
    · exact transQ s.ths ht _ rfl inv.instZ
    · exact transQ s.ths ht _ rfl inv.drainF
    · intro i idx2 pr hq
      dsimp only at hq
      rw [ListCnt.getD_set_eq_ite s.ths t ht _ TS.rDone i] at hq
      by_cases hit : i = t
      · rw [if_pos hit] at hq; exact TS.noConfusion hq
      · rw [if_neg hit] at hq
        exact inv.prPos i idx2 pr hq
    · intro h1 h2
      dsimp only at h1 h2 ⊢
      rw [same isRHold rfl]
      exact inv.invA h1 h2
    · exact transQ s.ths ht _ rfl inv.invH
    · intro i hq
      dsimp only at hq ⊢
      rw [ListCnt.getD_set_eq_ite s.ths t ht _ TS.rDone i] at hq
      by_cases hit : i = t
      · rw [if_pos hit] at hq; exact TS.noConfusion hq
      · rw [if_neg hit] at hq
        exact inv.clearI i hq

theorem step_wSnapPR (s : St) (t : Nat) (idx : Nat) (inv : Inv s)
    (hgd : s.ths.getD t TS.rDone = TS.wSnapPR idx) : Inv (applyStep s t) := by
  have ht : t < s.ths.length := ListCnt.getD_lt _ _ _ _ hgd (by intro h; cases h)
  have hg : s.ths.get ⟨t, ht⟩ = TS.wSnapPR idx := by
    rw [← ListCnt.getD_eq_get s.ths TS.rDone t ht]; exact hgd
  simp only [applyStep, hgd]
  by_cases hpr : s.pendingReaders = 0
  · rw [if_pos hpr]
    have same : ∀ P : TS → Bool, P (TS.wSnapPR idx) = P (TS.wDrain idx) →
        (s.ths.set t (TS.wDrain idx)).countP P = s.ths.countP P := fun P hP =>
      ListCnt.countP_set_same P _ t _ ht (by rw [hg]; exact hP)
    refine ⟨inv.mwl1, ?_, ?_, ?_, ?_, ?_, ?_, ?_, inv.wsC, inv.admZ, inv.psB,
      inv.nwSetup, inv.nwPre, ?_, ?_, ?_, ?_, ?_, ?_, ?_, ?_, ?_, inv.slotC,
      ?_, ?_, inv.dropP, ?_⟩
    · dsimp only
      rw [same isRegR rfl, ← inv.prC]
    · dsimp only
      rw [same isActR rfl, ← inv.arC]
    · dsimp only
      rw [same isRegW rfl, ← inv.pwC]
    · intro hw
      dsimp only at hw ⊢
      rw [same isPhaseW rfl]
      exact inv.openC hw
    · dsimp only
      rw [same isInitRole rfl]; exact inv.initU
    · dsimp only
      rw [same isWClear rfl]; exact inv.clearU
    · dsimp only
      rw [same isAdmW rfl]; exact inv.admC
    · exact transQ s.ths ht _ rfl inv.preZero
    · exact transQ s.ths ht _ rfl inv.preSet
    · exact transQ' s.ths ht _ _ hgd (fun _ => rfl) inv.postSet
    · intro i sz hq
      dsimp only at hq ⊢
      rw [ListCnt.getD_set_eq_ite s.ths t ht _ TS.rDone i] at hq
      by_cases hit : i = t
      · rw [if_pos hit] at hq
        rcases hq with hq | hq <;> exact TS.noConfusion hq
      · rw [if_neg hit] at hq
        exact inv.szB i sz hq
    · intro i sz hq
      dsimp only at hq ⊢
      rw [ListCnt.getD_set_eq_ite s.ths t ht _ TS.rDone i] at hq
      by_cases hit : i = t
      · rw [if_pos hit] at hq; exact TS.noConfusion hq
      · rw [if_neg hit] at hq
        exact inv.szLink i sz hq
    · intro i hq
      dsimp only at hq ⊢
      rw [ListCnt.getD_set_eq_ite s.ths t ht _ TS.rDone i] at hq ⊢
      by_cases hit : i = t
      · rw [if_pos hit] at hq; cases hq
      · rw [if_neg hit] at hq ⊢
        exact inv.folIdx i hq
    · exact transQ s.ths ht _ rfl inv.instZ
    · exact transQ' s.ths ht _ _ hgd (fun _ => rfl) inv.drainF
    · intro i idx2 pr hq
      dsimp only at hq
      rw [ListCnt.getD_set_eq_ite s.ths t ht _ TS.rDone i] at hq
      by_cases hit : i = t
      · rw [if_pos hit] at hq; exact TS.noConfusion hq
      · rw [if_neg hit] at hq
        exact inv.prPos i idx2 pr hq
    · intro h1 h2
      dsimp only at h1 h2 ⊢
      rw [same isRHold rfl]
      exact inv.invA h1 h2
    · exact transQ s.ths ht _ rfl inv.invH
    · intro i hq
      dsimp only at hq ⊢
      rw [ListCnt.getD_set_eq_ite s.ths t ht _ TS.rDone i] at hq
      by_cases hit : i = t
      · rw [if_pos hit] at hq; exact TS.noConfusion hq
      · rw [if_neg hit] at hq
        exact inv.clearI i hq
  · rw [if_neg hpr]
    have same : ∀ P : TS → Bool,
        P (TS.wSnapPR idx) = P (TS.wInstall idx s.pendingReaders) →
        (s.ths.set t (TS.wInstall idx s.pendingReaders)).countP P
          = s.ths.countP P := fun P hP =>
      ListCnt.countP_set_same P _ t _ ht (by rw [hg]; exact hP)
    refine ⟨inv.mwl1, ?_, ?_, ?_, ?_, ?_, ?_, ?_, inv.wsC, inv.admZ, inv.psB,
      inv.nwSetup, inv.nwPre, ?_, ?_, ?_, ?_, ?_, ?_, ?_, ?_, ?_, inv.slotC,
      ?_, ?_, inv.dropP, ?_⟩
    · dsimp only
      rw [same isRegR rfl, ← inv.prC]
    · dsimp only
      rw [same isActR rfl, ← inv.arC]
    · dsimp only
      rw [same isRegW rfl, ← inv.pwC]
    · intro hw
      dsimp only at hw ⊢
      rw [same isPhaseW rfl]
      exact inv.openC hw
    · dsimp only
      rw [same isInitRole rfl]; exact inv.initU
    · dsimp only
      rw [same isWClear rfl]; exact inv.clearU
    · dsimp only
      rw [same isAdmW rfl]; exact inv.admC
    · exact transQ s.ths ht _ rfl inv.preZero
    · exact transQ s.ths ht _ rfl inv.preSet
    · exact transQ' s.ths ht _ _ hgd (fun _ => rfl) inv.postSet
    · intro i sz hq
      dsimp only at hq ⊢
      rw [ListCnt.getD_set_eq_ite s.ths t ht _ TS.rDone i] at hq
      by_cases hit : i = t
      · rw [if_pos hit] at hq
        rcases hq with hq | hq <;> exact TS.noConfusion hq
      · rw [if_neg hit] at hq
        exact inv.szB i sz hq
    · intro i sz hq
      dsimp only at hq ⊢
      rw [ListCnt.getD_set_eq_ite s.ths t ht _ TS.rDone i] at hq
      by_cases hit : i = t
      · rw [if_pos hit] at hq; exact TS.noConfusion hq
      · rw [if_neg hit] at hq
        exact inv.szLink i sz hq
    · intro i hq
      dsimp only at hq ⊢
      rw [ListCnt.getD_set_eq_ite s.ths t ht _ TS.rDone i] at hq ⊢
      by_cases hit : i = t
      · rw [if_pos hit] at hq; cases hq
      · rw [if_neg hit] at hq ⊢
        exact inv.folIdx i hq
    · exact transQ' s.ths ht _ _ hgd (fun _ => rfl) inv.instZ
    · exact transQ' s.ths ht _ _ hgd (fun _ => rfl) inv.drainF
    · intro i idx2 pr hq
      dsimp only at hq
      rw [ListCnt.getD_set_eq_ite s.ths t ht _ TS.rDone i] at hq
      by_cases hit : i = t
      · rw [if_pos hit] at hq
        cases hq
        omega
      · rw [if_neg hit] at hq
        exact inv.prPos i idx2 pr hq
    · intro h1 h2
      dsimp only at h1 h2 ⊢
      rw [same isRHold rfl]
      exact inv.invA h1 h2
    · exact transQ s.ths ht _ rfl inv.invH
    · intro i hq
      dsimp only at hq ⊢
      rw [ListCnt.getD_set_eq_ite s.ths t ht _ TS.rDone i] at hq
      by_cases hit : i = t
      · rw [if_pos hit] at hq; exact TS.noConfusion hq
      · rw [if_neg hit] at hq
        exact inv.clearI i hq

theorem step_wInstall (s : St) (t : Nat) (idx pr : Nat) (inv : Inv s)
    (hgd : s.ths.getD t TS.rDone = TS.wInstall idx pr) : Inv (applyStep s t) := by
  have ht : t < s.ths.length := ListCnt.getD_lt _ _ _ _ hgd (by intro h; cases h)
  have hg : s.ths.get ⟨t, ht⟩ = TS.wInstall idx pr := by
    rw [← ListCnt.getD_eq_get s.ths TS.rDone t ht]; exact hgd
  simp only [applyStep, hgd]
  have hiw : s.isWriting = true := iw_of_phase s inv t (by rw [hgd]; rfl)
  obtain ⟨hrs0, hgI0, hgSA0⟩ := inv.instZ t (by rw [hgd]; rfl)
  have hgDr : s.gDrained = false := inv.drainF t (by rw [hgd]; rfl)
  have hgSA0' : s.gSlotAdm = 0 := hgSA0
  have hothers := unique_other s.ths isInitRole rfl inv.initU t ht (by rw [hg]; rfl)
  have same : ∀ P : TS → Bool, P (TS.wInstall idx pr) = P (TS.wDrain idx) →
      (s.ths.set t (TS.wDrain idx)).countP P = s.ths.countP P := fun P hP =>
    ListCnt.countP_set_same P _ t _ ht (by rw [hg]; exact hP)
  refine ⟨inv.mwl1, ?_, ?_, ?_, ?_, ?_, ?_, ?_, inv.wsC, inv.admZ, inv.psB,
    inv.nwSetup, inv.nwPre, ?_, ?_, ?_, ?_, ?_, ?_, ?_, ?_, ?_, ?_,
    ?_, ?_, inv.dropP, ?_⟩
  · dsimp only
    rw [same isRegR rfl, ← inv.prC]
  · dsimp only
    rw [same isActR rfl, ← inv.arC]
  · dsimp only
    rw [same isRegW rfl, ← inv.pwC]
  · intro hw
    dsimp only at hw
    rw [hiw] at hw; cases hw
  · dsimp only
    rw [same isInitRole rfl]; exact inv.initU
  · dsimp only
    rw [same isWClear rfl]; exact inv.clearU
  · dsimp only
    rw [same isAdmW rfl]; exact inv.admC
  · exact transQ s.ths ht _ rfl inv.preZero
  · exact transQ s.ths ht _ rfl inv.preSet
  · exact transQ' s.ths ht _ _ hgd (fun _ => rfl) inv.postSet
  · intro i sz hq
    dsimp only at hq ⊢
    rw [ListCnt.getD_set_eq_ite s.ths t ht _ TS.rDone i] at hq
    by_cases hit : i = t
    · rw [if_pos hit] at hq
      rcases hq with hq | hq <;> exact TS.noConfusion hq
    · rw [if_neg hit] at hq
      exact inv.szB i sz hq
  · intro i sz hq
    dsimp only at hq ⊢
    rw [ListCnt.getD_set_eq_ite s.ths t ht _ TS.rDone i] at hq
    by_cases hit : i = t
    · rw [if_pos hit] at hq; exact TS.noConfusion hq
    · rw [if_neg hit] at hq
      exact inv.szLink i sz hq
  · intro i hq
    dsimp only at hq ⊢
    rw [ListCnt.getD_set_eq_ite s.ths t ht _ TS.rDone i] at hq ⊢
    by_cases hit : i = t
    · rw [if_pos hit] at hq; cases hq
    · rw [if_neg hit] at hq ⊢
      exact inv.folIdx i hq
  · intro i hq
    dsimp only at hq
    rw [ListCnt.getD_set_eq_ite s.ths t ht _ TS.rDone i] at hq
    by_cases hit : i = t
    · rw [if_pos hit] at hq; cases hq
    · rw [if_neg hit] at hq
      exfalso
      have := initRole_of_preInstall _ hq
      rw [hothers i hit] at this; cases this
  · exact transQ' s.ths ht _ _ hgd (fun _ => rfl) inv.drainF
  · intro i idx2 pr2 hq
    dsimp only at hq
    rw [ListCnt.getD_set_eq_ite s.ths t ht _ TS.rDone i] at hq
    by_cases hit : i = t
    · rw [if_pos hit] at hq; exact TS.noConfusion hq
    · rw [if_neg hit] at hq
      exact inv.prPos i idx2 pr2 hq
  · dsimp only
    rw [hgSA0, hrs0, Nat.zero_add]
    show 0 ||| pr = pr
    simp
  · intro _ h2
    dsimp only at h2
    rw [hgDr] at h2; cases h2
  · intro i hq
    dsimp only at hq
    rw [ListCnt.getD_set_eq_ite s.ths t ht _ TS.rDone i] at hq
    by_cases hit : i = t
    · rw [if_pos hit] at hq; cases hq
    · rw [if_neg hit] at hq
      exfalso
      have := (inv.invH i hq).2
      rw [hgDr] at this; cases this
  · intro i hq
    dsimp only at hq ⊢
    rw [ListCnt.getD_set_eq_ite s.ths t ht _ TS.rDone i] at hq
    by_cases hit : i = t
    · rw [if_pos hit] at hq; exact TS.noConfusion hq
    · rw [if_neg hit] at hq
      exact inv.clearI i hq

theorem rHold_actR : ∀ x, isRHold x = true → isActR x = true := by
  intro x h; cases x <;> first | rfl | cases h

theorem step_wDrain (s : St) (t : Nat) (idx : Nat) (inv : Inv s)
    (hgd : s.ths.getD t TS.rDone = TS.wDrain idx) : Inv (applyStep s t) := by
  have ht : t < s.ths.length := ListCnt.getD_lt _ _ _ _ hgd (by intro h; cases h)
  have hg : s.ths.get ⟨t, ht⟩ = TS.wDrain idx := by
    rw [← ListCnt.getD_eq_get s.ths TS.rDone t ht]; exact hgd
  simp only [applyStep, hgd]
  by_cases hgo : s.activeReaders = 0 ∧ s.readSlots = 0
  · rw [if_pos hgo]
    obtain ⟨har0, hrs0⟩ := hgo
    have hiw : s.isWriting = true := iw_of_phase s inv t (by rw [hgd]; rfl)
    have hgSet : s.gSetup = true := inv.postSet t (by rw [hgd]; rfl)
    have hRH0 : s.ths.countP isRHold = 0 := by
      have hmono := ListCnt.countP_mono isRHold isActR s.ths rHold_actR
      have := inv.arC
      omega
    have hothers := unique_other s.ths isInitRole rfl inv.initU t ht (by rw [hg]; rfl)
    have same : ∀ P : TS → Bool, P (TS.wDrain idx) = P (TS.wHold idx true) →
        (s.ths.set t (TS.wHold idx true)).countP P = s.ths.countP P := fun P hP =>
      ListCnt.countP_set_same P _ t _ ht (by rw [hg]; exact hP)
    refine ⟨inv.mwl1, ?_, ?_, ?_, ?_, ?_, ?_, ?_, inv.wsC, inv.admZ, inv.psB,
      inv.nwSetup, inv.nwPre, ?_, ?_, ?_, ?_, ?_, ?_, ?_, ?_, ?_, inv.slotC,
      ?_, ?_, ?_, ?_⟩
    · dsimp only
      rw [same isRegR rfl, ← inv.prC]
    · dsimp only
      rw [same isActR rfl, ← inv.arC]
    · dsimp only
      rw [same isRegW rfl, ← inv.pwC]
    · intro hw
      dsimp only at hw
      rw [hiw] at hw; cases hw
    · dsimp only
      rw [same isInitRole rfl]; exact inv.initU
    · dsimp only
      rw [same isWClear rfl]; exact inv.clearU
    · dsimp only
      rw [same isAdmW rfl]; exact inv.admC
    · exact transQ s.ths ht _ rfl inv.preZero
    · exact transQ s.ths ht _ rfl inv.preSet
    · exact transQ' s.ths ht _ _ hgd (fun _ => rfl) inv.postSet
    · intro i sz hq
      dsimp only at hq ⊢
      rw [ListCnt.getD_set_eq_ite s.ths t ht _ TS.rDone i] at hq
      by_cases hit : i = t
      · rw [if_pos hit] at hq
        rcases hq with hq | hq <;> exact TS.noConfusion hq
      · rw [if_neg hit] at hq
        exact inv.szB i sz hq
    · intro i sz hq
      dsimp only at hq ⊢
      rw [ListCnt.getD_set_eq_ite s.ths t ht _ TS.rDone i] at hq
      by_cases hit : i = t
      · rw [if_pos hit] at hq; exact TS.noConfusion hq
      · rw [if_neg hit] at hq
        exact inv.szLink i sz hq
    · intro i hq
      dsimp only at hq ⊢
      rw [ListCnt.getD_set_eq_ite s.ths t ht _ TS.rDone i] at hq ⊢
      by_cases hit : i = t
      · rw [if_pos hit] at hq
        simp only [isFol] at hq
        cases hq
      · rw [if_neg hit] at hq ⊢
        exact inv.folIdx i hq
    · exact transQ s.ths ht _ rfl inv.instZ
    · intro i hq
      dsimp only at hq
      rw [ListCnt.getD_set_eq_ite s.ths t ht _ TS.rDone i] at hq
      by_cases hit : i = t
      · rw [if_pos hit] at hq; cases hq
      · rw [if_neg hit] at hq
        exfalso
        have := initRole_of_preDrain _ hq
        rw [hothers i hit] at this; cases this
    · intro i idx2 pr hq
      dsimp only at hq
      rw [ListCnt.getD_set_eq_ite s.ths t ht _ TS.rDone i] at hq
      by_cases hit : i = t
      · rw [if_pos hit] at hq; exact TS.noConfusion hq
      · rw [if_neg hit] at hq
        exact inv.prPos i idx2 pr hq
    · intro _ _
      dsimp only
      rw [same isRHold rfl]
      exact ⟨hrs0, hRH0⟩
    · intro i _
      exact ⟨hiw, rfl⟩
    · intro _
      rfl
    · intro i hq
      dsimp only at hq ⊢
      rw [ListCnt.getD_set_eq_ite s.ths t ht _ TS.rDone i] at hq
      by_cases hit : i = t
      · rw [if_pos hit] at hq; exact TS.noConfusion hq
      · rw [if_neg hit] at hq
        exact inv.clearI i hq
  · rw [if_neg hgo]
    exact inv

theorem step_wWaitTurn (s : St) (t : Nat) (idx : Nat) (inv : Inv s)
    (hgd : s.ths.getD t TS.rDone = TS.wWaitTurn idx) : Inv (applyStep s t) := by
  have ht : t < s.ths.length := ListCnt.getD_lt _ _ _ _ hgd (by intro h; cases h)
  have hg : s.ths.get ⟨t, ht⟩ = TS.wWaitTurn idx := by
    rw [← ListCnt.getD_eq_get s.ths TS.rDone t ht]; exact hgd
  simp only [applyStep, hgd]
  by_cases hnw : s.nextWriterId = idx
  · rw [if_pos hnw]
    have hiw : s.isWriting = true := iw_of_phase s inv t (by rw [hgd]; rfl)
    have hfolpre := inv.folIdx t (by rw [hgd]; rfl)
    rw [hgd] at hfolpre
    have hidx1 : 1 ≤ idx := hfolpre.1
    have hidxPS : idx + 1 ≤ s.gPS := hfolpre.2
    have hgSet : s.gSetup = true := by
      cases hS : s.gSetup
      · exfalso
        obtain ⟨hnw0, _⟩ := inv.nwPre hS hiw
        omega
      · rfl
    have hdrop1 : 1 ≤ s.gDropped := by
      have := inv.nwSetup hgSet
      omega
    have hgDr : s.gDrained = true := inv.dropP hdrop1
    have same : ∀ P : TS → Bool, P (TS.wWaitTurn idx) = P (TS.wHold idx false) →
        (s.ths.set t (TS.wHold idx false)).countP P = s.ths.countP P := fun P hP =>
      ListCnt.countP_set_same P _ t _ ht (by rw [hg]; exact hP)
    refine ⟨inv.mwl1, ?_, ?_, ?_, ?_, ?_, ?_, ?_, inv.wsC, inv.admZ, inv.psB,
      inv.nwSetup, inv.nwPre, ?_, ?_, ?_, ?_, ?_, ?_, ?_, ?_, ?_, inv.slotC,
      ?_, ?_, inv.dropP, ?_⟩
    · dsimp only
      rw [same isRegR rfl, ← inv.prC]
    · dsimp only
      rw [same isActR rfl, ← inv.arC]
    · dsimp only
      rw [same isRegW rfl, ← inv.pwC]
    · intro hw
      dsimp only at hw
      rw [hiw] at hw; cases hw
    · dsimp only
      rw [same isInitRole rfl]; exact inv.initU
    · dsimp only
      rw [same isWClear rfl]; exact inv.clearU
    · dsimp only
      rw [same isAdmW rfl]; exact inv.admC
    · exact transQ s.ths ht _ rfl inv.preZero
    · exact transQ s.ths ht _ rfl inv.preSet
    · intro i hq
      dsimp only at hq
      rw [ListCnt.getD_set_eq_ite s.ths t ht _ TS.rDone i] at hq
      by_cases hit : i = t
      · exact hgSet
      · rw [if_neg hit] at hq
        exact inv.postSet i hq
    · intro i sz hq
      dsimp only at hq ⊢
      rw [ListCnt.getD_set_eq_ite s.ths t ht _ TS.rDone i] at hq
      by_cases hit : i = t
      · rw [if_pos hit] at hq
        rcases hq with hq | hq <;> exact TS.noConfusion hq
      · rw [if_neg hit] at hq
        exact inv.szB i sz hq
    · intro i sz hq
      dsimp only at hq ⊢
      rw [ListCnt.getD_set_eq_ite s.ths t ht _ TS.rDone i] at hq
      by_cases hit : i = t
      · rw [if_pos hit] at hq; exact TS.noConfusion hq
      · rw [if_neg hit] at hq
        exact inv.szLink i sz hq
    · intro i hq
      dsimp only at hq ⊢
      rw [ListCnt.getD_set_eq_ite s.ths t ht _ TS.rDone i] at hq ⊢
      by_cases hit : i = t
      · rw [if_pos hit]
        exact hfolpre
      · rw [if_neg hit] at hq ⊢
        exact inv.folIdx i hq
    · exact transQ s.ths ht _ rfl inv.instZ
    · exact transQ s.ths ht _ rfl inv.drainF
    · intro i idx2 pr hq
      dsimp only at hq
      rw [ListCnt.getD_set_eq_ite s.ths t ht _ TS.rDone i] at hq
      by_cases hit : i = t
      · rw [if_pos hit] at hq; exact TS.noConfusion hq
      · rw [if_neg hit] at hq
        exact inv.prPos i idx2 pr hq
    · intro h1 h2
      dsimp only at h1 h2 ⊢
      rw [same isRHold rfl]
      exact inv.invA h1 h2
    · intro i _
      exact ⟨hiw, hgDr⟩
    · intro i hq
      dsimp only at hq ⊢
      rw [ListCnt.getD_set_eq_ite s.ths t ht _ TS.rDone i] at hq
      by_cases hit : i = t
      · rw [if_pos hit] at hq; exact TS.noConfusion hq
      · rw [if_neg hit] at hq
        exact inv.clearI i hq
  · rw [if_neg hnw]
    exact inv

theorem eq_wClear : ∀ x, isWClear x = true → x = TS.wClear := by
  intro x h; cases x <;> first | rfl | cases h

theorem admW_of_wHold : ∀ x, isWHold x = true → isAdmW x = true := by
  intro x h; cases x <;> first | rfl | cases h

theorem step_wHold (s : St) (t : Nat) (idx : Nat) (ini : Bool) (inv : Inv s)
    (hgd : s.ths.getD t TS.rDone = TS.wHold idx ini) : Inv (applyStep s t) := by
  have ht : t < s.ths.length := ListCnt.getD_lt _ _ _ _ hgd (by intro h; cases h)
  have hg : s.ths.get ⟨t, ht⟩ = TS.wHold idx ini := by
    rw [← ListCnt.getD_eq_get s.ths TS.rDone t ht]; exact hgd
  simp only [applyStep, hgd]
  obtain ⟨hiw, hgDr⟩ := inv.invH t (by rw [hgd]; rfl)
  have hgSet : s.gSetup = true := inv.postSet t (by rw [hgd]; rfl)
  have hnwEq : s.nextWriterId + s.gDropped = s.gPS := inv.nwSetup hgSet
  have hadm1 : 1 ≤ s.ths.countP isAdmW :=
    cnt_pos_getD s.ths t isAdmW (TS.wHold idx ini) hgd rfl rfl
  have hadmC := inv.admC
  have hwsC := inv.wsC
  have hnw1 : 1 ≤ s.nextWriterId := by omega
  by_cases hone : s.nextWriterId = 1
  · rw [if_pos hone]
    have hcw0 : s.ths.countP isWClear = 0 := by
      cases hc : s.ths.countP isWClear
      · rfl
      · exfalso
        obtain ⟨i, hi, hPi⟩ :=
          ListCnt.exists_getD_of_countP_pos isWClear s.ths TS.rDone (by omega)
        have hnw0 := (inv.clearI i (eq_wClear _ hPi)).2.1
        omega
    have same : ∀ P : TS → Bool, P (TS.wHold idx ini) = P TS.wClear →
        (s.ths.set t TS.wClear).countP P = s.ths.countP P := fun P hP =>
      ListCnt.countP_set_same P _ t _ ht (by rw [hg]; exact hP)
    have hadmd : s.ths.countP isAdmW = (s.ths.set t TS.wClear).countP isAdmW + 1 :=
      ListCnt.countP_set_decr _ _ t _ ht (by rw [hg]; rfl) rfl
    have hcwi : (s.ths.set t TS.wClear).countP isWClear = s.ths.countP isWClear + 1 :=
      ListCnt.countP_set_incr _ _ t _ ht (by rw [hg]; cases ini <;> rfl) rfl
    have hinile : (s.ths.set t TS.wClear).countP isInitRole ≤ s.ths.countP isInitRole :=
      ListCnt.countP_set_le _ _ t _ ht rfl
    refine ⟨inv.mwl1, ?_, ?_, ?_, ?_, ?_, ?_, ?_, inv.wsC, inv.admZ, inv.psB,
      ?_, ?_, ?_, ?_, ?_, ?_, ?_, ?_, ?_, ?_, ?_, inv.slotC,
      ?_, ?_, ?_, ?_⟩
    · dsimp only
      rw [same isRegR (by cases ini <;> rfl), ← inv.prC]
    · dsimp only
      rw [same isActR (by cases ini <;> rfl), ← inv.arC]
    · dsimp only
      rw [same isRegW (by cases ini <;> rfl), ← inv.pwC]
    · intro hw
      dsimp only at hw
      rw [hiw] at hw; cases hw
    · dsimp only
      have := inv.initU
      omega
    · dsimp only
      omega
    · dsimp only
      omega
    · dsimp only
      intro _
      omega
    · dsimp only
      intro h _
      rw [hgSet] at h; cases h
    · intro i hq
      dsimp only at hq
      rw [ListCnt.getD_set_eq_ite s.ths t ht _ TS.rDone i] at hq
      by_cases hit : i = t
      · rw [if_pos hit] at hq; cases hq
      · rw [if_neg hit] at hq
        exfalso
        have := (inv.preZero i hq).2.1
        omega
    · intro i hq
      dsimp only at hq
      rw [ListCnt.getD_set_eq_ite s.ths t ht _ TS.rDone i] at hq
      by_cases hit : i = t
      · rw [if_pos hit] at hq; cases hq
      · rw [if_neg hit] at hq
        exfalso
        have := inv.preSet i hq
        rw [hgSet] at this; cases this
    · intro i _
      exact hgSet
    · intro i sz hq
      dsimp only at hq ⊢
      rw [ListCnt.getD_set_eq_ite s.ths t ht _ TS.rDone i] at hq
      by_cases hit : i = t
      · rw [if_pos hit] at hq
        rcases hq with hq | hq <;> exact TS.noConfusion hq
      · rw [if_neg hit] at hq
        exact inv.szB i sz hq
    · intro i sz hq
      dsimp only at hq ⊢
      rw [ListCnt.getD_set_eq_ite s.ths t ht _ TS.rDone i] at hq
      by_cases hit : i = t
      · rw [if_pos hit] at hq; exact TS.noConfusion hq
      · rw [if_neg hit] at hq
        exact inv.szLink i sz hq
    · intro i hq
      dsimp only at hq ⊢
      rw [ListCnt.getD_set_eq_ite s.ths t ht _ TS.rDone i] at hq ⊢
      by_cases hit : i = t
      · rw [if_pos hit] at hq; cases hq
      · rw [if_neg hit] at hq ⊢
        exact inv.folIdx i hq
    · exact transQ s.ths ht _ rfl inv.instZ
    · exact transQ s.ths ht _ rfl inv.drainF
    · intro i idx2 pr hq
      dsimp only at hq
      rw [ListCnt.getD_set_eq_ite s.ths t ht _ TS.rDone i] at hq
      by_cases hit : i = t
      · rw [if_pos hit] at hq; exact TS.noConfusion hq
      · rw [if_neg hit] at hq
        exact inv.prPos i idx2 pr hq
    · intro h1 h2
      dsimp only at h1 h2 ⊢
      rw [same isRHold (by cases ini <;> rfl)]
      exact inv.invA h1 h2
    · intro i hq
      dsimp only at hq
      rw [ListCnt.getD_set_eq_ite s.ths t ht _ TS.rDone i] at hq
      by_cases hit : i = t
      · rw [if_pos hit] at hq; cases hq
      · rw [if_neg hit] at hq
        exact inv.invH i hq
    · intro _
      exact hgDr
    · intro i hq
      dsimp only at hq ⊢
      rw [ListCnt.getD_set_eq_ite s.ths t ht _ TS.rDone i] at hq
      by_cases hit : i = t
      · refine ⟨hiw, by omega, by omega, hgSet, by omega⟩
      · rw [if_neg hit] at hq
        exfalso
        have := (inv.clearI i hq).2.1
        omega
  · rw [if_neg hone]
    have same : ∀ P : TS → Bool, P (TS.wHold idx ini) = P TS.wDone →
        (s.ths.set t TS.wDone).countP P = s.ths.countP P := fun P hP =>
      ListCnt.countP_set_same P _ t _ ht (by rw [hg]; exact hP)
    have hadmd : s.ths.countP isAdmW = (s.ths.set t TS.wDone).countP isAdmW + 1 :=
      ListCnt.countP_set_decr _ _ t _ ht (by rw [hg]; rfl) rfl
    have hinile : (s.ths.set t TS.wDone).countP isInitRole ≤ s.ths.countP isInitRole :=
      ListCnt.countP_set_le _ _ t _ ht rfl
    refine ⟨inv.mwl1, ?_, ?_, ?_, ?_, ?_, ?_, ?_, inv.wsC, inv.admZ, inv.psB,
      ?_, ?_, ?_, ?_, ?_, ?_, ?_, ?_, ?_, ?_, ?_, inv.slotC,
      ?_, ?_, ?_, ?_⟩
    · dsimp only
      rw [same isRegR (by cases ini <;> rfl), ← inv.prC]
    · dsimp only
      rw [same isActR (by cases ini <;> rfl), ← inv.arC]
    · dsimp only
      rw [same isRegW (by cases ini <;> rfl), ← inv.pwC]
    · intro hw
      dsimp only at hw
      rw [hiw] at hw; cases hw
    · dsimp only
      have := inv.initU
      omega
    · dsimp only
      rw [same isWClear (by cases ini <;> rfl)]
      exact inv.clearU
    · dsimp only
      omega
    · dsimp only
      intro _
      omega
    · dsimp only
      intro h _
      rw [hgSet] at h; cases h
    · intro i hq
      dsimp only at hq
      rw [ListCnt.getD_set_eq_ite s.ths t ht _ TS.rDone i] at hq
      by_cases hit : i = t
      · rw [if_pos hit] at hq; cases hq
      · rw [if_neg hit] at hq
        exfalso
        have := (inv.preZero i hq).2.1
        omega
    · intro i hq
      dsimp only at hq
      rw [ListCnt.getD_set_eq_ite s.ths t ht _ TS.rDone i] at hq
      by_cases hit : i = t
      · rw [if_pos hit] at hq; cases hq
      · rw [if_neg hit] at hq
        exfalso
        have := inv.preSet i hq
        rw [hgSet] at this; cases this
    · intro i _
      exact hgSet
    · intro i sz hq
      dsimp only at hq ⊢
      rw [ListCnt.getD_set_eq_ite s.ths t ht _ TS.rDone i] at hq
      by_cases hit : i = t
      · rw [if_pos hit] at hq
        rcases hq with hq | hq <;> exact TS.noConfusion hq
      · rw [if_neg hit] at hq
        exact inv.szB i sz hq
    · intro i sz hq
      dsimp only at hq ⊢
      rw [ListCnt.getD_set_eq_ite s.ths t ht _ TS.rDone i] at hq
      by_cases hit : i = t
      · rw [if_pos hit] at hq; exact TS.noConfusion hq
      · rw [if_neg hit] at hq
        exact inv.szLink i sz hq
    · intro i hq
      dsimp only at hq ⊢
      rw [ListCnt.getD_set_eq_ite s.ths t ht _ TS.rDone i] at hq ⊢
      by_cases hit : i = t
      · rw [if_pos hit] at hq; cases hq
      · rw [if_neg hit] at hq ⊢
        exact inv.folIdx i hq
    · exact transQ s.ths ht _ rfl inv.instZ
    · exact transQ s.ths ht _ rfl inv.drainF
    · intro i idx2 pr hq
      dsimp only at hq
      rw [ListCnt.getD_set_eq_ite s.ths t ht _ TS.rDone i] at hq
      by_cases hit : i = t
      · rw [if_pos hit] at hq; exact TS.noConfusion hq
      · rw [if_neg hit] at hq
        exact inv.prPos i idx2 pr hq
    · intro h1 h2
      dsimp only at h1 h2 ⊢
      rw [same isRHold (by cases ini <;> rfl)]
      exact inv.invA h1 h2
    · intro i hq
      dsimp only at hq
      rw [ListCnt.getD_set_eq_ite s.ths t ht _ TS.rDone i] at hq
      by_cases hit : i = t
      · rw [if_pos hit] at hq; cases hq
      · rw [if_neg hit] at hq
        exact inv.invH i hq
    · intro _
      exact hgDr
    · intro i hq
      dsimp only at hq ⊢
      rw [ListCnt.getD_set_eq_ite s.ths t ht _ TS.rDone i] at hq
      by_cases hit : i = t
      · rw [if_pos hit] at hq; exact TS.noConfusion hq
      · rw [if_neg hit] at hq
        exfalso
        have := (inv.clearI i hq).2.1
        omega

theorem step_wClear (s : St) (t : Nat) (inv : Inv s)
    (hgd : s.ths.getD t TS.rDone = TS.wClear) : Inv (applyStep s t) := by
  have ht : t < s.ths.length := ListCnt.getD_lt _ _ _ _ hgd (by intro h; cases h)
  have hg : s.ths.get ⟨t, ht⟩ = TS.wClear := by
    rw [← ListCnt.getD_eq_get s.ths TS.rDone t ht]; exact hgd
  simp only [applyStep, hgd]
  obtain ⟨hiw, hnw0, hgDeq, hgSet, hgPS1⟩ := inv.clearI t hgd
  have hadmC := inv.admC
  have hwsC := inv.wsC
  have hgAdmEq : s.gAdm = s.gPS := by omega
  have hadm0 : s.ths.countP isAdmW = 0 := by omega
  have hws0 : s.writeSlots = 0 := by omega
  have hgDr : s.gDrained = true := inv.dropP (by omega)
  obtain ⟨hrs0, hRH0⟩ := inv.invA hiw hgDr
  have hadm_all := ListCnt.all_of_countP_zero isAdmW s.ths TS.rDone rfl hadm0
  have hclo := unique_other s.ths isWClear rfl inv.clearU t ht (by rw [hg]; rfl)
  have hnophase : ∀ i, i ≠ t → isPhaseW (s.ths.getD i TS.rDone) = false := by
    intro i hit
    cases hx : s.ths.getD i TS.rDone <;> first
      | rfl
      | (have h1 := inv.preSet i (by rw [hx]; rfl)
         rw [hgSet] at h1
         exact Bool.noConfusion h1)
      | (have h1 := hadm_all i
         rw [hx] at h1
         exact Bool.noConfusion h1)
      | (have h1 := hclo i hit
         rw [hx] at h1
         exact Bool.noConfusion h1)
  have same : ∀ P : TS → Bool, P TS.wClear = P TS.wDone →
      (s.ths.set t TS.wDone).countP P = s.ths.countP P := fun P hP =>
    ListCnt.countP_set_same P _ t _ ht (by rw [hg]; exact hP)
  refine ⟨inv.mwl1, ?_, ?_, ?_, ?_, ?_, ?_, ?_, inv.wsC, inv.admZ, inv.psB,
    inv.nwSetup, ?_, ?_, ?_, ?_, ?_, ?_, ?_, ?_, ?_, ?_, inv.slotC,
    ?_, ?_, ?_, ?_⟩
  · dsimp only
    rw [same isRegR rfl, ← inv.prC]
  · dsimp only
    rw [same isActR rfl, ← inv.arC]
  · dsimp only
    rw [same isRegW rfl, ← inv.pwC]
  · intro _
    dsimp only
    refine ⟨?_, hws0, hnw0, hrs0⟩
    apply ListCnt.countP_zero_of_getD
    intro i
    rw [ListCnt.getD_set_eq_ite s.ths t ht _ TS.rDone i]
    by_cases hit : i = t
    · rw [if_pos hit]; rfl
    · rw [if_neg hit]
      exact hnophase i hit
  · dsimp only
    rw [same isInitRole rfl]; exact inv.initU
  · dsimp only
    have := ListCnt.countP_set_le isWClear s.ths t TS.wDone ht rfl
    have := inv.clearU
    omega
  · dsimp only
    rw [same isAdmW rfl]; exact inv.admC
  · dsimp only
    intro h _
    rw [hgSet] at h; cases h
  · intro i hq
    dsimp only at hq
    rw [ListCnt.getD_set_eq_ite s.ths t ht _ TS.rDone i] at hq
    by_cases hit : i = t
    · rw [if_pos hit] at hq; cases hq
    · rw [if_neg hit] at hq
      exfalso
      have := inv.preSet i (by
        have := initRole_of_preSlots _ hq
        exact (by
          cases hx : s.ths.getD i TS.rDone <;> rw [hx] at hq <;>
            first | rfl | cases hq))
      rw [hgSet] at this; cases this
  · intro i hq
    dsimp only at hq
    rw [ListCnt.getD_set_eq_ite s.ths t ht _ TS.rDone i] at hq
    by_cases hit : i = t
    · rw [if_pos hit] at hq; cases hq
    · rw [if_neg hit] at hq
      exfalso
      have := inv.preSet i hq
      rw [hgSet] at this; cases this
  · intro i _
    exact hgSet
  · intro i sz hq
    dsimp only at hq ⊢
    rw [ListCnt.getD_set_eq_ite s.ths t ht _ TS.rDone i] at hq
    by_cases hit : i = t
    · rw [if_pos hit] at hq
      rcases hq with hq | hq <;> exact TS.noConfusion hq
    · rw [if_neg hit] at hq
      exact inv.szB i sz hq
  · intro i sz hq
    dsimp only at hq ⊢
    rw [ListCnt.getD_set_eq_ite s.ths t ht _ TS.rDone i] at hq
    by_cases hit : i = t
    · rw [if_pos hit] at hq; exact TS.noConfusion hq
    · rw [if_neg hit] at hq
      exact inv.szLink i sz hq
  · intro i hq
    dsimp only at hq ⊢
    rw [ListCnt.getD_set_eq_ite s.ths t ht _ TS.rDone i] at hq ⊢
    by_cases hit : i = t
    · rw [if_pos hit] at hq; cases hq
    · rw [if_neg hit] at hq ⊢
      exact inv.folIdx i hq
  · exact transQ s.ths ht _ rfl inv.instZ
  · exact transQ s.ths ht _ rfl inv.drainF
  · intro i idx pr hq
    dsimp only at hq
    rw [ListCnt.getD_set_eq_ite s.ths t ht _ TS.rDone i] at hq
    by_cases hit : i = t
    · rw [if_pos hit] at hq; exact TS.noConfusion hq
    · rw [if_neg hit] at hq
      exact inv.prPos i idx pr hq
  · intro h1
    dsimp only at h1
    cases h1
  · intro i hq
    dsimp only at hq
    rw [ListCnt.getD_set_eq_ite s.ths t ht _ TS.rDone i] at hq
    by_cases hit : i = t
    · rw [if_pos hit] at hq; cases hq
    · rw [if_neg hit] at hq
      exfalso
      have h1 := hadm_all i
      rw [admW_of_wHold _ hq] at h1
      exact Bool.noConfusion h1
  · intro _
    exact hgDr
  · intro i hq
    dsimp only at hq ⊢
    rw [ListCnt.getD_set_eq_ite s.ths t ht _ TS.rDone i] at hq
    by_cases hit : i = t
    · rw [if_pos hit] at hq; exact TS.noConfusion hq
    · rw [if_neg hit] at hq
      exfalso
      have := hclo i hit
      rw [hq] at this; cases this

/-- Every atomic step of any thread preserves the invariant. -/
theorem inv_step (s : St) (t : Nat) (inv : Inv s) : Inv (applyStep s t) := by
  cases hgd : s.ths.getD t TS.rDone with
  | rStart =>
    have ht : t < s.ths.length := ListCnt.getD_lt _ _ _ _ hgd (by intro h; cases h)
    exact step_rStart s t inv ht (by rw [← ListCnt.getD_eq_get s.ths TS.rDone t ht]; exact hgd)
  | rLoad => exact step_rLoad s t inv hgd
  | rTrySlot => exact step_rTrySlot s t inv hgd
  | rInit => exact step_rInit s t inv hgd
  | rCheck => exact step_rCheck s t inv hgd
  | rReset => exact step_rReset s t inv hgd
  | rHold => exact step_rHold s t inv hgd
  | rDone =>
    simp only [applyStep, hgd]
    exact inv
  | wStart => exact step_wStart s t inv hgd
  | wLoad => exact step_wLoad s t inv hgd
  | wTrySlot => exact step_wTrySlot s t inv hgd
  | wSwap => exact step_wSwap s t inv hgd
  | wSnapPW => exact step_wSnapPW s t inv hgd
  | wStoreSlots sz => exact step_wStoreSlots s t sz inv hgd
  | wStoreNext sz => exact step_wStoreNext s t sz inv hgd
  | wDec idx ini => exact step_wDec s t idx ini inv hgd
  | wSnapPR idx => exact step_wSnapPR s t idx inv hgd
  | wInstall idx pr => exact step_wInstall s t idx pr inv hgd
  | wDrain idx => exact step_wDrain s t idx inv hgd
  | wWaitTurn idx => exact step_wWaitTurn s t idx inv hgd
  | wHold idx ini => exact step_wHold s t idx ini inv hgd
  | wClear => exact step_wClear s t inv hgd
  | wDone =>
    simp only [applyStep, hgd]
    exact inv

theorem inv_run (s : St) (sched : List Nat) (inv : Inv s) : Inv (run s sched) := by
  induction sched generalizing s with
  | nil => exact inv
  | cons a as ih => exact ih (applyStep s a) (inv_step s a inv)

/-- Every state reachable from a legally constructed controller
(`max_write_line ≥ 1`) satisfies the inductive invariant. -/
theorem inv_reach (ks : List Bool) (mwl : Nat) (hm : 1 ≤ mwl) (s : St)
    (hr : Reach (mkSt ks mwl) s) : Inv s := by
  obtain ⟨sched, hrun⟩ := hr
  rw [← hrun]
  exact inv_run _ sched (inv_mkSt ks mwl hm)

/-- `CASAccessControl::new` (cas.rs 108-115): `assert!(max_write_line > 0)`
fails construction at 0; otherwise the configured bound is stored unchanged
on a fresh all-zero controller (`Default`, cas.rs 95-106). -/
def casNew (ks : List Bool) (mwl : Nat) : Option St :=
  if mwl = 0 then none else some (mkSt ks mwl)

/-- Claim C8: constructing a phased-CAS controller with max_write_line = 0
fails with a precondition violation; for every max_write_line ≥ 1 the
construction succeeds and the configured bound is stored unchanged (on a
controller whose counters are all zero and whose is_writing flag is clear). -/
theorem c8_new_bound (ks : List Bool) (mwl : Nat) :
    casNew ks 0 = none ∧
    (1 ≤ mwl → ∃ s, casNew ks mwl = some s ∧ s.maxWriteLine = mwl ∧
      s.isWriting = false ∧ s.writeSlots = 0 ∧ s.nextWriterId = 0 ∧
      s.pendingWriters = 0 ∧ s.activeReaders = 0 ∧ s.pendingReaders = 0 ∧
      s.readSlots = 0) := by
  constructor
  · rfl
  · intro hm
    refine ⟨mkSt ks mwl, ?_, rfl, rfl, rfl, rfl, rfl, rfl, rfl, rfl⟩
    rw [casNew, if_neg (by omega)]

theorem c8_new_bound_witness :
    casNew [] 0 = none ∧ ∃ s, casNew [] 3 = some s ∧ s.maxWriteLine = 3 ∧
      s.isWriting = false ∧ s.writeSlots = 0 ∧ s.nextWriterId = 0 ∧
      s.pendingWriters = 0 ∧ s.activeReaders = 0 ∧ s.pendingReaders = 0 ∧
      s.readSlots = 0 :=
  ⟨(c8_new_bound [] 0).1, (c8_new_bound [] 3).2 (by decide)⟩

/-- Claim C10: a writer that just became initiator is still registered in
pending_writers (incremented at cas.rs 217, not decremented before cas.rs
250), so the load at cas.rs 234 returns at least 1; hence
slots_size = min(pending_writers, max_write_line) ≥ 1, the store of
slots_size - 1 (cas.rs 237) cannot underflow, and the initiator slot index
slot_idx = slots_size is never 0. -/
theorem c10_initiator_pw (ks : List Bool) (mwl : Nat) (hm : 1 ≤ mwl) (s : St)
    (t : Nat) (hr : Reach (mkSt ks mwl) s) :
    (s.ths.getD t TS.rDone = TS.wSnapPW →
      1 ≤ s.pendingWriters ∧ 1 ≤ min s.pendingWriters s.maxWriteLine) ∧
    (∀ sz, s.ths.getD t TS.rDone = TS.wStoreSlots sz →
      1 ≤ sz ∧ sz ≤ s.maxWriteLine) := by
  have inv := inv_reach ks mwl hm s hr
  constructor
  · intro hgd
    have h1 : 1 ≤ s.pendingWriters := by
      rw [inv.pwC]
      exact cnt_pos_getD s.ths t isRegW TS.wSnapPW hgd rfl rfl
    have := inv.mwl1
    exact ⟨h1, by omega⟩
  · intro sz hgd
    exact inv.szB t sz (Or.inl hgd)

theorem c10_initiator_pw_witness :
    1 ≤ (run (mkSt [true] 1) [0, 0, 0]).pendingWriters ∧
      1 ≤ min (run (mkSt [true] 1) [0, 0, 0]).pendingWriters
            (run (mkSt [true] 1) [0, 0, 0]).maxWriteLine :=
  (c10_initiator_pw [true] 1 (by decide) (run (mkSt [true] 1) [0, 0, 0]) 0
    ⟨[0, 0, 0], rfl⟩).1 (by decide)

/-- Claim C4: the initiator's drain loop (cas.rs 261-272) is left — and the
WritePermit created — only from a state whose single read_flags load shows
active_readers = 0 and read_slots = 0; and while the initiator holds its
permit the read-slot quota stays exhausted. -/
theorem c4_initiator_drains (ks : List Bool) (mwl : Nat) (hm : 1 ≤ mwl)
    (s : St) (t : Nat) (hr : Reach (mkSt ks mwl) s) :
    (∀ idx, s.ths.getD t TS.rDone = TS.wDrain idx →
      (applyStep s t).ths.getD t TS.rDone ≠ TS.wDrain idx →
      s.activeReaders = 0 ∧ s.readSlots = 0) ∧
    (∀ idx, s.ths.getD t TS.rDone = TS.wHold idx true → s.readSlots = 0) := by
  have inv := inv_reach ks mwl hm s hr
  constructor
  · intro idx hgd hne
    by_cases hgo : s.activeReaders = 0 ∧ s.readSlots = 0
    · exact hgo
    · exfalso
      apply hne
      simp only [applyStep, hgd, if_neg hgo]
  · intro idx hgd
    obtain ⟨hiw, hgDr⟩ := inv.invH t (by rw [hgd]; rfl)
    exact (inv.invA hiw hgDr).1

theorem c4_initiator_drains_witness :
    (run (mkSt [true] 1) [0, 0, 0, 0, 0, 0, 0, 0]).activeReaders = 0 ∧
      (run (mkSt [true] 1) [0, 0, 0, 0, 0, 0, 0, 0]).readSlots = 0 :=
  (c4_initiator_drains [true] 1 (by decide)
      (run (mkSt [true] 1) [0, 0, 0, 0, 0, 0, 0, 0]) 0
      ⟨[0, 0, 0, 0, 0, 0, 0, 0], rfl⟩).1 1 (by decide) (by decide)

/-- Only the `is_writing.store(false)` of a drop that observed 1 (cas.rs
55-59, modelled as the `wClear` step) ever clears `is_writing`. -/
theorem step_clears_iw (s : St) (t : Nat)
    (h : (applyStep s t).isWriting = false) (hiw : s.isWriting = true) :
    s.ths.getD t TS.rDone = TS.wClear := by
  cases hx : s.ths.getD t TS.rDone <;> simp only [applyStep, hx] at h <;>
    first
    | rfl
    | (rw [hiw] at h; exact Bool.noConfusion h)
    | (split at h <;> (try dsimp only at h) <;>
        first
        | (rw [hiw] at h; exact Bool.noConfusion h)
        | exact Bool.noConfusion h)

/-- Claim C2: the initiator computes phase_size = min(pending_writers,
max_write_line) (cas.rs 234-235); admissions into a phase never exceed
phase_size ≤ max_write_line; is_writing is cleared only by the wClear step of
a permit drop, which is taken exactly when the drop's fetch_sub observed 1;
and when the clearing writer runs, exactly phase_size writers were admitted
and all of them have dropped (next_writer_id = 0). -/
theorem c2_write_line (ks : List Bool) (mwl : Nat) (hm : 1 ≤ mwl) (s : St)
    (t : Nat) (hr : Reach (mkSt ks mwl) s) :
    (s.gAdm ≤ s.gPS ∧ s.gPS ≤ s.maxWriteLine) ∧
    (s.ths.getD t TS.rDone = TS.wSnapPW →
      (applyStep s t).ths.getD t TS.rDone
        = TS.wStoreSlots (min s.pendingWriters s.maxWriteLine)) ∧
    (s.ths.getD t TS.rDone = TS.wClear →
      s.nextWriterId = 0 ∧ s.gDropped = s.gPS ∧ s.gAdm = s.gPS ∧ 1 ≤ s.gPS) ∧
    ((applyStep s t).isWriting = false → s.isWriting = true →
      s.ths.getD t TS.rDone = TS.wClear) ∧
    (∀ idx ini, s.ths.getD t TS.rDone = TS.wHold idx ini →
      1 ≤ s.nextWriterId ∧
      ((applyStep s t).ths.getD t TS.rDone = TS.wClear ↔ s.nextWriterId = 1)) := by
  have inv := inv_reach ks mwl hm s hr
  refine ⟨⟨by have := inv.wsC; omega, inv.psB⟩, ?_, ?_, ?_, ?_⟩
  · intro hgd
    have ht : t < s.ths.length := ListCnt.getD_lt _ _ _ _ hgd (by intro h; cases h)
    simp only [applyStep, hgd]
    exact ListCnt.getD_set_self _ _ _ _ ht
  · intro hgd
    obtain ⟨_, hnw0, hgDeq, _, hgPS1⟩ := inv.clearI t hgd
    have := inv.admC
    have := inv.wsC
    exact ⟨hnw0, hgDeq, by omega, hgPS1⟩
  · exact fun h hiw => step_clears_iw s t h hiw
  · intro idx ini hgd
    have ht : t < s.ths.length := ListCnt.getD_lt _ _ _ _ hgd (by intro h; cases h)
    have hgSet : s.gSetup = true := inv.postSet t (by rw [hgd]; rfl)
    have hnwEq := inv.nwSetup hgSet
    have hadm1 : 1 ≤ s.ths.countP isAdmW :=
      cnt_pos_getD s.ths t isAdmW (TS.wHold idx ini) hgd rfl rfl
    have hadmC := inv.admC
    have hwsC := inv.wsC
    refine ⟨by omega, ?_⟩
    simp only [applyStep, hgd]
    rw [ListCnt.getD_set_self _ _ _ _ ht]
    by_cases hone : s.nextWriterId = 1
    · rw [if_pos hone]
      exact ⟨fun _ => hone, fun _ => rfl⟩
    · rw [if_neg hone]
      exact ⟨fun hc => absurd hc (by intro hc2; cases hc2), fun hc => absurd hc hone⟩

theorem c2_write_line_witness :
    (run (mkSt [true] 1) [0, 0, 0, 0, 0, 0, 0, 0, 0, 0]).nextWriterId = 0 ∧
    (run (mkSt [true] 1) [0, 0, 0, 0, 0, 0, 0, 0, 0, 0]).gDropped
      = (run (mkSt [true] 1) [0, 0, 0, 0, 0, 0, 0, 0, 0, 0]).gPS ∧
    (run (mkSt [true] 1) [0, 0, 0, 0, 0, 0, 0, 0, 0, 0]).gAdm
      = (run (mkSt [true] 1) [0, 0, 0, 0, 0, 0, 0, 0, 0, 0]).gPS ∧
    1 ≤ (run (mkSt [true] 1) [0, 0, 0, 0, 0, 0, 0, 0, 0, 0]).gPS :=
  (c2_write_line [true] 1 (by decide)
      (run (mkSt [true] 1) [0, 0, 0, 0, 0, 0, 0, 0, 0, 0]) 0
      ⟨[0, 0, 0, 0, 0, 0, 0, 0, 0, 0], rfl⟩).2.2.1 (by decide)

/-- Claim C3 counterexample: a concrete interleaving of one reader and one
writer (max_write_line = 1) in which the reader registers, the writer becomes
initiator and installs the one-slot grace quota, and the reader is admitted
through that slot: the resulting reachable state has active_readers = 1 while
is_writing = true, so `active_readers > 0 ⇒ is_writing = false` does not hold
in every reachable globally consistent state. -/
theorem c3_counterexample :
    Reach (mkSt [false, true] 1)
        (run (mkSt [false, true] 1) [0, 1, 1, 1, 1, 1, 1, 1, 1, 1, 0, 0]) ∧
    (run (mkSt [false, true] 1) [0, 1, 1, 1, 1, 1, 1, 1, 1, 1, 0, 0]).activeReaders = 1 ∧
    (run (mkSt [false, true] 1) [0, 1, 1, 1, 1, 1, 1, 1, 1, 1, 0, 0]).isWriting = true ∧
    (run (mkSt [false, true] 1) [0, 1, 1, 1, 1, 1, 1, 1, 1, 1, 0, 0]).ths.getD 0 TS.rDone
      = TS.rHold :=
  ⟨⟨[0, 1, 1, 1, 1, 1, 1, 1, 1, 1, 0, 0], rfl⟩, by decide, by decide, by decide⟩

/-- Claim C3 amended: the raw state predicate fails (see the counterexample:
slot-admitted readers run while is_writing is still true), but permit
exclusion holds — in every reachable state, no reader holding a CASReadGuard
coexists with a writer holding a CASWriteGuard, so admitted readers never
overlap an admitted writer's mutation window. -/
theorem c3_permit_exclusion (ks : List Bool) (mwl : Nat) (hm : 1 ≤ mwl)
    (s : St) (hr : Reach (mkSt ks mwl) s) :
    ∀ t u idx ini, s.ths.getD t TS.rDone = TS.rHold →
      s.ths.getD u TS.rDone ≠ TS.wHold idx ini := by
  intro t u idx ini hrh hwh
  have inv := inv_reach ks mwl hm s hr
  obtain ⟨hiw, hgDr⟩ := inv.invH u (by rw [hwh]; rfl)
  have h0 := (inv.invA hiw hgDr).2
  have h1 := cnt_pos_getD s.ths t isRHold TS.rHold hrh rfl rfl
  omega

theorem c3_permit_exclusion_witness :
    (run (mkSt [false, true] 1) [0, 1, 1, 1, 1, 1, 1, 1, 1, 1, 0, 0]).ths.getD 1 TS.rDone
      ≠ TS.wHold 1 true :=
  c3_permit_exclusion [false, true] 1 (by decide)
    (run (mkSt [false, true] 1) [0, 1, 1, 1, 1, 1, 1, 1, 1, 1, 0, 0])
    ⟨[0, 1, 1, 1, 1, 1, 1, 1, 1, 1, 0, 0], rfl⟩ 0 1 1 true (by decide)

/-- Claim C1 counterexample: reader A (thread 0) registers before the
initiator's snapshot, so the phase's quota of 1 slot is installed for it; but
reader B (thread 1), which registers only after the snapshot and the install,
consumes that slot, is admitted and leaves, while A tries and fails; the
phase then completes (is_writing back to false, gDropped = gPS = 1) with A
still pending (pc rLoad, pending_readers = 1).  So a slot granted for the
pre-registered set can be consumed by a later reader and a pre-registered
reader is not admitted during the phase. -/
theorem c1_counterexample :
    Reach (mkSt [false, false, true] 1)
        (run (mkSt [false, false, true] 1) [0, 2, 2, 2, 2, 2, 2, 2, 2, 2]) ∧
    (run (mkSt [false, false, true] 1) [0, 2, 2, 2, 2, 2, 2, 2, 2, 2]).ths.getD 1 TS.rDone
      = TS.rStart ∧
    isRegR ((run (mkSt [false, false, true] 1)
        [0, 2, 2, 2, 2, 2, 2, 2, 2, 2]).ths.getD 0 TS.rDone) = true ∧
    (run (mkSt [false, false, true] 1) [0, 2, 2, 2, 2, 2, 2, 2, 2, 2]).gInstalled = 1 ∧
    (run (mkSt [false, false, true] 1) [0, 2, 2, 2, 2, 2, 2, 2, 2, 2]).readSlots = 1 ∧
    Reach (mkSt [false, false, true] 1)
        (run (mkSt [false, false, true] 1)
          [0, 2, 2, 2, 2, 2, 2, 2, 2, 2, 1, 1, 1, 0, 0, 1, 2, 2, 2]) ∧
    (run (mkSt [false, false, true] 1)
        [0, 2, 2, 2, 2, 2, 2, 2, 2, 2, 1, 1, 1, 0, 0, 1, 2, 2, 2]).isWriting = false ∧
    (run (mkSt [false, false, true] 1)
        [0, 2, 2, 2, 2, 2, 2, 2, 2, 2, 1, 1, 1, 0, 0, 1, 2, 2, 2]).gPS = 1 ∧
    (run (mkSt [false, false, true] 1)
        [0, 2, 2, 2, 2, 2, 2, 2, 2, 2, 1, 1, 1, 0, 0, 1, 2, 2, 2]).gDropped = 1 ∧
    (run (mkSt [false, false, true] 1)
        [0, 2, 2, 2, 2, 2, 2, 2, 2, 2, 1, 1, 1, 0, 0, 1, 2, 2, 2]).gSlotAdm = 1 ∧
    (run (mkSt [false, false, true] 1)
        [0, 2, 2, 2, 2, 2, 2, 2, 2, 2, 1, 1, 1, 0, 0, 1, 2, 2, 2]).ths.getD 1 TS.rDone
      = TS.rDone ∧
    (run (mkSt [false, false, true] 1)
        [0, 2, 2, 2, 2, 2, 2, 2, 2, 2, 1, 1, 1, 0, 0, 1, 2, 2, 2]).ths.getD 0 TS.rDone
      = TS.rLoad ∧
    (run (mkSt [false, false, true] 1)
        [0, 2, 2, 2, 2, 2, 2, 2, 2, 2, 1, 1, 1, 0, 0, 1, 2, 2, 2]).pendingReaders = 1 :=
  ⟨⟨[0, 2, 2, 2, 2, 2, 2, 2, 2, 2], rfl⟩, by decide, by decide, by decide, by decide,
   ⟨[0, 2, 2, 2, 2, 2, 2, 2, 2, 2, 1, 1, 1, 0, 0, 1, 2, 2, 2], rfl⟩,
   by decide, by decide, by decide, by decide, by decide, by decide, by decide⟩

/-- Claim C1 amended: at phase start the initiator installs a read-slot quota
exactly equal to the pending_readers value it snapshots (the read-slot field
is 0 at that point, so the OR of cas.rs 166-172 stores exactly that value,
when positive), and during the phase slot admissions plus remaining slots
always equal the installed quota — so at most snapshot-many readers are
admitted via slots; but slots are consumed first-come-first-served by any
registered reader, including ones that registered after the snapshot, so an
individual pre-registered reader is not guaranteed admission in that phase
(see the counterexample). -/
theorem c1_slot_accounting (ks : List Bool) (mwl : Nat) (hm : 1 ≤ mwl)
    (s : St) (t : Nat) (hr : Reach (mkSt ks mwl) s) :
    s.gSlotAdm + s.readSlots = s.gInstalled ∧
    (∀ idx pr, s.ths.getD t TS.rDone = TS.wInstall idx pr →
      s.readSlots = 0 ∧ 1 ≤ pr ∧ (applyStep s t).readSlots = pr ∧
      (applyStep s t).gInstalled = pr) := by
  have inv := inv_reach ks mwl hm s hr
  refine ⟨inv.slotC, ?_⟩
  intro idx pr hgd
  obtain ⟨hrs0, _, _⟩ := inv.instZ t (by rw [hgd]; rfl)
  have hpr1 := inv.prPos t idx pr hgd
  refine ⟨hrs0, hpr1, ?_, ?_⟩
  · simp only [applyStep, hgd]
    show s.readSlots ||| pr = pr
    rw [hrs0]
    simp
  · simp only [applyStep, hgd]

theorem c1_slot_accounting_witness :
    (run (mkSt [false, false, true] 1) [0, 2, 2, 2, 2, 2, 2, 2, 2]).readSlots = 0 ∧
    1 ≤ 1 ∧
    (applyStep (run (mkSt [false, false, true] 1) [0, 2, 2, 2, 2, 2, 2, 2, 2]) 2).readSlots
      = 1 ∧
    (applyStep (run (mkSt [false, false, true] 1) [0, 2, 2, 2, 2, 2, 2, 2, 2]) 2).gInstalled
      = 1 :=
  (c1_slot_accounting [false, false, true] 1 (by decide)
      (run (mkSt [false, false, true] 1) [0, 2, 2, 2, 2, 2, 2, 2, 2]) 2
      ⟨[0, 2, 2, 2, 2, 2, 2, 2, 2], rfl⟩).2 1 1 (by decide)

end Cas

namespace Acb

def RMASK : Nat := 0xFFFF          -- NUM_READERS_MASK (atomic.rs 68)
def WMASK : Nat := 0xFFFF0000      -- NUM_WRITERS_MASK (atomic.rs 71)
def M64 : Nat := 2 ^ 64 - 1

/-- One successful pass of `AtomicControlBlock::write`'s CAS loop
(atomic.rs 82-107) on the packed 64-bit word, uncontended: admission is
refused (the loop keeps spinning) only while the reader field is non-zero;
otherwise the writer field is incremented and the compare_exchange installs
the new word.  No check of the writer field is made.  `flags & !W` of the
source is `flags &&& (M64 ^^^ WMASK)` here. -/
def writeAdmit (flags : Nat) : Option Nat :=
  if flags &&& RMASK ≠ 0 then none
  else some ((flags &&& (M64 ^^^ WMASK)) ||| ((((flags &&& WMASK) >>> 16) + 1) <<< 16))

/-- `WriteGuard::drop` (atomic.rs 21-34): decrement the writer field. -/
def writeGuardDrop (flags : Nat) : Nat :=
  (flags &&& (M64 ^^^ WMASK)) ||| ((((flags &&& WMASK) >>> 16) - 1) <<< 16)

/-- Claim C9: the baseline `AtomicControlBlock::write` admits a writer
exactly when the active-reader field is zero and never checks the writer
field: from the empty control word one admission succeeds (one live
WriteGuard, writer field 1), and a second admission from that state — with
the first guard still outstanding — also succeeds, so the writer field
reaches 2 and two WriteGuards are simultaneously live. -/
theorem c9_double_write_admission :
    (∀ flags : Nat, (writeAdmit flags).isSome = true ↔ flags &&& RMASK = 0) ∧
    writeAdmit 0 = some 0x10000 ∧
    writeAdmit 0x10000 = some 0x20000 ∧
    (0x20000 &&& WMASK) >>> 16 = 2 ∧ 0x20000 &&& RMASK = 0 := by
  refine ⟨?_, by decide, by decide, by decide, by decide⟩
  intro flags
  constructor
  · intro h
    by_cases hr : flags &&& RMASK = 0
    · exact hr
    · rw [writeAdmit, if_pos hr] at h
      cases h
  · intro h
    rw [writeAdmit, if_neg (by rw [h]; intro hc; exact hc rfl)]
    rfl

theorem c9_double_write_admission_witness :
    (writeAdmit 0x20000).isSome = true :=
  (c9_double_write_admission.1 0x20000).mpr (by decide)

end Acb

namespace OldAtomic

/-- The heap of the legacy `Atomic` in atomic.rs: entry `g` is generation
`g`'s `ValueRefInner` (atomic.rs 196-209) as `(data, refs)`, or `none` once
`ValueRef::drop` has deallocated that inner allocation.  `allocs`/`deallocs`
count every `alloc`/`dealloc` call the code performs. -/
structure Cell (T : Type) where
  gens : List (Option (T × Nat))
  cur : Nat
  allocs : Nat
  deallocs : Nat
  live : Bool

/-- `ValueRef::drop` (atomic.rs 229-241): `refs.fetch_sub(1)`; when the old
value was 1, `drop_in_place` + `dealloc` of the inner `ValueRefInner` (one
dealloc).  The enclosing heap-allocated `ValueRef` box produced by
`allocate` in `Atomic::new`/`Atomic::write` is only ever `drop_in_place`d
(atomic.rs 161, 190), never passed to `dealloc`, so no outer dealloc is ever
counted. -/
def decRef {T : Type} (c : Cell T) (g : Nat) : Cell T :=
  match c.gens.getD g none with
  | none => c
  | some (d, r) =>
    if r = 1 then { c with gens := c.gens.set g none, deallocs := c.deallocs + 1 }
    else { c with gens := c.gens.set g (some (d, r - 1)) }

/-- `Atomic::new` (atomic.rs 166-171): `allocate(ValueRef::new(value, 0))` —
two heap allocations: the `ValueRefInner` (refs = 1) made inside
`ValueRef::new` (atomic.rs 244-251) and the outer `ValueRef` box. -/
def newCell {T : Type} (v : T) : Cell T :=
  { gens := [some (v, 1)], cur := 0, allocs := 2, deallocs := 0, live := true }

/-- `Atomic::write` (atomic.rs 181-191): allocate a fresh generation (again
two allocations), swap `current` to it, then `drop_in_place(old_ref)` which
runs `ValueRef::drop` on the old generation. -/
def writeCell {T : Type} (c : Cell T) (v : T) : Cell T :=
  decRef
    { c with
      gens := c.gens ++ [some (v, 1)]
      allocs := c.allocs + 2
      cur := c.gens.length }
    c.cur

/-- `Atomic::read` (atomic.rs 173-178): load `current`, `clone` it
(atomic.rs 217-227: refs += 1, no heap allocation), return the handle (the
generation index). -/
def readCell {T : Type} (c : Cell T) : Cell T × Nat :=
  match c.gens.getD c.cur none with
  | some (d, r) => ({ c with gens := c.gens.set c.cur (some (d, r + 1)) }, c.cur)
  | none => (c, c.cur)

/-- Dropping a Snapshot Handle runs `ValueRef::drop` on its generation. -/
def dropHandle {T : Type} (c : Cell T) (g : Nat) : Cell T := decRef c g

/-- `Atomic::drop` (atomic.rs 159-163): `drop_in_place(current)` — runs
`ValueRef::drop` on the installed generation; the outer `ValueRef` box is
again never deallocated. -/
def dropCell {T : Type} (c : Cell T) : Cell T :=
  { decRef c c.cur with live := false }

/-- `ValueRef::get` (atomic.rs 253-255) through a handle. -/
def handleGet {T : Type} (c : Cell T) (g : Nat) : Option T :=
  (c.gens.getD g none).map Prod.fst

/-- A workload step on one cell. -/
inductive Op (T : Type) : Type
  | doWrite (v : T)
  | doRead
  | doDropHandle (g : Nat)
  | doDropCell

def apOp {T : Type} (c : Cell T) : Op T → Cell T
  | Op.doWrite v => writeCell c v
  | Op.doRead => (readCell c).1
  | Op.doDropHandle g => dropHandle c g
  | Op.doDropCell => dropCell c

def noneB {T : Type} : Option (T × Nat) → Bool
  | none => true
  | some _ => false

/-- Allocation bookkeeping invariant: every generation cost two allocations
(outer box + inner), and exactly the freed inner allocations have been
deallocated. -/
def HeapInv {T : Type} (c : Cell T) : Prop :=
  c.allocs = 2 * c.gens.length ∧ c.deallocs = c.gens.countP noneB ∧
    1 ≤ c.gens.length

theorem decRef_heapInv {T : Type} (c : Cell T) (g : Nat) (h : HeapInv c) :
    HeapInv (decRef c g) := by
  obtain ⟨h1, h2, h3⟩ := h
  rw [decRef]
  cases hg : c.gens.getD g none with
  | none => exact ⟨h1, h2, h3⟩
  | some p =>
    obtain ⟨d, r⟩ := p
    have hlt : g < c.gens.length :=
      ListCnt.getD_lt c.gens none g (some (d, r)) hg (by intro hc; cases hc)
    have hget : c.gens.get ⟨g, hlt⟩ = some (d, r) := by
      rw [← ListCnt.getD_eq_get c.gens none g hlt]
      exact hg
    dsimp only
    by_cases hr : r = 1
    · rw [if_pos hr]
      refine ⟨by simpa using h1, ?_, by simpa using h3⟩
      have := ListCnt.countP_set_incr noneB c.gens g none hlt (by rw [hget]; rfl) rfl
      dsimp only
      omega
    · rw [if_neg hr]
      refine ⟨by simpa using h1, ?_, by simpa using h3⟩
      have := ListCnt.countP_set_same noneB c.gens g (some (d, r - 1)) hlt
        (by rw [hget]; rfl)
      dsimp only
      omega

theorem apOp_heapInv {T : Type} (c : Cell T) (op : Op T) (h : HeapInv c) :
    HeapInv (apOp c op) := by
  obtain ⟨h1, h2, h3⟩ := h
  cases op with
  | doWrite v =>
    show HeapInv (writeCell c v)
    rw [writeCell]
    apply decRef_heapInv
    refine ⟨?_, ?_, ?_⟩
    · dsimp only
      rw [List.length_append]
      simp only [List.length_cons, List.length_nil]
      omega
    · dsimp only
      rw [List.countP_append]
      simp [List.countP_cons, List.countP_nil, noneB]
      omega
    · dsimp only
      rw [List.length_append]
      omega
  | doRead =>
    rw [apOp, readCell]
    cases hg : c.gens.getD c.cur none with
    | none => exact ⟨h1, h2, h3⟩
    | some p =>
      obtain ⟨d, r⟩ := p
      have hlt : c.cur < c.gens.length :=
        ListCnt.getD_lt c.gens none c.cur (some (d, r)) hg (by intro hc; cases hc)
      have hget : c.gens.get ⟨c.cur, hlt⟩ = some (d, r) := by
        rw [← ListCnt.getD_eq_get c.gens none c.cur hlt]
        exact hg
      have := ListCnt.countP_set_same noneB c.gens c.cur (some (d, r + 1)) hlt
        (by rw [hget]; rfl)
      refine ⟨by simpa using h1, by dsimp only; omega, by simpa using h3⟩
  | doDropHandle g => exact decRef_heapInv c g ⟨h1, h2, h3⟩
  | doDropCell =>
    have := decRef_heapInv c c.cur ⟨h1, h2, h3⟩
    obtain ⟨g1, g2, g3⟩ := this
    exact ⟨g1, g2, g3⟩

theorem run_heapInv {T : Type} (c : Cell T) (ops : List (Op T)) (h : HeapInv c) :
    HeapInv (ops.foldl apOp c) := by
  induction ops generalizing c with
  | nil => exact h
  | cons op rest ih => exact ih (apOp c op) (apOp_heapInv c op h)

/-- Claim C5 (refuted by the code): dropping a freshly constructed cell
deallocates only one of its two allocations, and more generally no workload
whatsoever can balance allocations against deallocations, because every
generation costs two allocations (outer `ValueRef` box + inner
`ValueRefInner`) while only inner allocations are ever deallocated —
`ptr::drop_in_place(old_ref)` at atomic.rs 190 and
`ptr::drop_in_place(self.current...)` at atomic.rs 161 are never followed by
`dealloc` of the box produced by `allocate` (atomic.rs 258-265). -/
theorem c5_alloc_imbalance :
    ((dropCell (newCell (0 : Nat))).allocs = 2 ∧
      (dropCell (newCell (0 : Nat))).deallocs = 1) ∧
    ∀ ops : List (Op Nat),
      (ops.foldl apOp (newCell (0 : Nat))).deallocs
        < (ops.foldl apOp (newCell (0 : Nat))).allocs := by
  refine ⟨⟨by decide, by decide⟩, ?_⟩
  intro ops
  have h := run_heapInv (newCell (0 : Nat)) ops ⟨rfl, rfl, by decide⟩
  obtain ⟨h1, h2, h3⟩ := h
  have hle : (ops.foldl apOp (newCell (0 : Nat))).gens.countP noneB
      ≤ (ops.foldl apOp (newCell (0 : Nat))).gens.length := by
    induction (ops.foldl apOp (newCell (0 : Nat))).gens with
    | nil => exact Nat.le_refl 0
    | cons a as ih =>
      simp only [List.countP_cons, List.length_cons]
      cases noneB a <;> simp <;> omega
  omega

theorem writeCell_keeps {T : Type} (c : Cell T) (v : T) (g : Nat) (d : T)
    (r : Nat) (hlt : g < c.gens.length)
    (hg : c.gens.getD g none = some (d, r))
    (hr2 : c.cur = g → 2 ≤ r) (hr1 : 1 ≤ r) :
    ∃ r', (writeCell c v).gens.getD g none = some (d, r') ∧ 1 ≤ r' ∧
      (writeCell c v).cur = c.gens.length := by
  have hlt2 : g < (c.gens ++ [some (v, 1)]).length := by
    rw [List.length_append]
    omega
  simp only [writeCell, decRef]
  by_cases hcg : c.cur = g
  · have hsc : (c.gens ++ [some (v, 1)]).getD c.cur none = some (d, r) := by
      rw [hcg, ListCnt.getD_append_left _ _ _ _ hlt, hg]
    rw [hsc]
    have hr2' := hr2 hcg
    dsimp only
    rw [if_neg (by omega)]
    refine ⟨r - 1, ?_, by omega, rfl⟩
    dsimp only
    rw [hcg, ListCnt.getD_set_self _ _ _ _ hlt2]
  · cases hsc : (c.gens ++ [some (v, 1)]).getD c.cur none with
    | none =>
      refine ⟨r, ?_, hr1, rfl⟩
      dsimp only
      rw [ListCnt.getD_append_left _ _ _ _ hlt, hg]
    | some p =>
      obtain ⟨d2, r2⟩ := p
      dsimp only
      by_cases hr2eq : r2 = 1
      · rw [if_pos hr2eq]
        refine ⟨r, ?_, hr1, rfl⟩
        dsimp only
        rw [ListCnt.getD_set_ne _ _ _ _ _ hcg,
          ListCnt.getD_append_left _ _ _ _ hlt, hg]
      · rw [if_neg hr2eq]
        refine ⟨r, ?_, hr1, rfl⟩
        dsimp only
        rw [ListCnt.getD_set_ne _ _ _ _ _ hcg,
          ListCnt.getD_append_left _ _ _ _ hlt, hg]

/-- Claim C6: a Snapshot Handle on generation `g` (holding one unit of that
generation's refs, plus the cell's own unit while `g` is still current)
continues to observe its original value after any number of subsequent
writes: each `Atomic::write` only appends a fresh generation, repoints
`current`, and decrements the old current generation's refs — the handle's
own reference keeps its `ValueRefInner` allocated, so `get()` still returns
the value observed at read time. -/
theorem c6_snapshot_independence {T : Type} (c : Cell T) (g : Nat) (d : T)
    (r : Nat) (vs : List T)
    (hg : c.gens.getD g none = some (d, r))
    (hr2 : c.cur = g → 2 ≤ r) (hr1 : 1 ≤ r) :
    handleGet (vs.foldl writeCell c) g = some d := by
  induction vs generalizing c r with
  | nil =>
    show handleGet c g = some d
    rw [handleGet, hg]
    rfl
  | cons v rest ih =>
    show handleGet (rest.foldl writeCell (writeCell c v)) g = some d
    have hlt : g < c.gens.length :=
      ListCnt.getD_lt _ _ _ _ hg (by intro hc; cases hc)
    obtain ⟨r', hg', hr1', hcur'⟩ := writeCell_keeps c v g d r hlt hg hr2 hr1
    exact ih (writeCell c v) r' hg' (fun hc => absurd (hcur' ▸ hc) (by omega)) hr1'

theorem c6_snapshot_independence_witness :
    handleGet ([1, 2, 3].foldl writeCell (readCell (newCell (0 : Nat))).1) 0
      = some 0 :=
  c6_snapshot_independence (readCell (newCell (0 : Nat))).1 0 0 2 [1, 2, 3]
    (by decide) (fun _ => by decide) (by decide)

end OldAtomic


namespace Tx

/-- Modelled from the spec: the multi-cell Transaction component (spec
§4.5) is absent from the sources — only its tests (tests/tx.rs) call it —
so its execution steps are modelled here from the specification's words: a
store of immutable generations (ids in allocation order), one current
generation id per cell, and allocation/deallocation counters.  Permit
acquisition is implicit in the sequential execution of the steps. -/
structure TxSt (T : Type) where
  gens : List T
  cur : List Nat
  allocs : Nat
  deallocs : Nat

/-- Modelled from the spec, step 1: sort the (cell id, update function)
pairs by cell id ascending (insertion sort; the order of duplicates is
implementation-defined). -/
def insertPair {T : Type} (p : Nat × (T → Option T)) :
    List (Nat × (T → Option T)) → List (Nat × (T → Option T))
  | [] => [p]
  | q :: rest => if p.1 ≤ q.1 then p :: q :: rest else q :: insertPair p rest

def sortPairs {T : Type} :
    List (Nat × (T → Option T)) → List (Nat × (T → Option T))
  | [] => []
  | p :: rest => insertPair p (sortPairs rest)

/-- Modelled from the spec, steps 2-4: for each cell in sorted order, load
its current generation, call the update function; on a value, allocate a
new generation and install it immediately (the design installs before
detecting a later abort, spec §9); on no value, mark abort and stop.
Returns the resulting store, the (cell id, old generation) install records
in installation order, and the success flag. -/
def runPairs {T : Type} (d0 : T) :
    TxSt T → List (Nat × (T → Option T)) → TxSt T × List (Nat × Nat) × Bool
  | st, [] => (st, [], true)
  | st, (cid, f) :: rest =>
    let p := st.cur.getD cid 0
    match f (st.gens.getD p d0) with
    | none => (st, [], false)
    | some v =>
      let st2 : TxSt T :=
        { st with
          gens := st.gens ++ [v]
          allocs := st.allocs + 1
          cur := st.cur.set cid st.gens.length }
      let res := runPairs d0 st2 rest
      (res.1, (cid, p) :: res.2.1, res.2.2)

/-- Modelled from the spec, step 5: on abort, restore every installed
cell's current pointer to its old (pre-transaction) generation, undoing the
installs in reverse installation order. -/
def restore : List (Nat × Nat) → List Nat → List Nat
  | [], cur => cur
  | (cid, p) :: rest, cur => (restore rest cur).set cid p

/-- Modelled from the spec: `Transaction::execute` — run the sorted pairs;
on success keep the installs and report true; on abort restore all current
pointers, deallocate every already-allocated new generation, and report
false. -/
def execute {T : Type} (d0 : T) (st : TxSt T)
    (pairs : List (Nat × (T → Option T))) : TxSt T × Bool :=
  let r := runPairs d0 st (sortPairs pairs)
  if r.2.2 then (r.1, true)
  else
    ({ r.1 with
       cur := restore r.2.1 r.1.cur
       deallocs := r.1.deallocs + r.2.1.length }, false)

/-- The specification's success criterion, in its own words: walking the
sorted pairs sequentially (each applied to the value its cell holds at that
point), every update function returned a value. -/
def allSome {T : Type} (d0 : T) : TxSt T → List (Nat × (T → Option T)) → Bool
  | _, [] => true
  | st, (cid, f) :: rest =>
    match f (st.gens.getD (st.cur.getD cid 0) d0) with
    | none => false
    | some v =>
      allSome d0
        { st with
          gens := st.gens ++ [v]
          allocs := st.allocs + 1
          cur := st.cur.set cid st.gens.length } rest

theorem runPairs_spec {T : Type} (d0 : T) (st : TxSt T)
    (ps : List (Nat × (T → Option T))) :
    (runPairs d0 st ps).2.2 = allSome d0 st ps ∧
    ((runPairs d0 st ps).2.2 = false →
      restore (runPairs d0 st ps).2.1 (runPairs d0 st ps).1.cur = st.cur) ∧
    (runPairs d0 st ps).1.allocs = st.allocs + (runPairs d0 st ps).2.1.length ∧
    (runPairs d0 st ps).1.deallocs = st.deallocs := by
  induction ps generalizing st with
  | nil =>
    refine ⟨rfl, fun h => rfl, rfl, rfl⟩
  | cons q rest ih =>
    obtain ⟨cid, f⟩ := q
    simp only [runPairs, allSome]
    cases hf : f (st.gens.getD (st.cur.getD cid 0) d0) with
    | none =>
      exact ⟨rfl, fun _ => rfl, rfl, rfl⟩
    | some v =>
      obtain ⟨ih1, ih2, ih3, ih4⟩ := ih
        { st with
          gens := st.gens ++ [v]
          allocs := st.allocs + 1
          cur := st.cur.set cid st.gens.length }
      dsimp only at ih1 ih2 ih3 ih4
      refine ⟨ih1, ?_, ?_, ih4⟩
      · intro hfalse
        simp only [restore]
        rw [ih2 hfalse]
        rw [ListCnt.set_set_same, ListCnt.set_getD_cancel]
      · simp only [List.length_cons]
        omega

/-- Claim C7: `Transaction::execute` returns true exactly when every update
function (applied along the sorted sequential run) returned a value; and on
abort every involved cell's current pointer is restored to its
pre-transaction generation, with each new generation allocated before the
abort matched by one deallocation. -/
theorem c7_execute_atomic {T : Type} (d0 : T) (st : TxSt T)
    (pairs : List (Nat × (T → Option T))) :
    ((execute d0 st pairs).2 = true ↔
      allSome d0 st (sortPairs pairs) = true) ∧
    ((execute d0 st pairs).2 = false →
      (execute d0 st pairs).1.cur = st.cur ∧
      ∃ k, (execute d0 st pairs).1.allocs = st.allocs + k ∧
        (execute d0 st pairs).1.deallocs = st.deallocs + k) := by
  obtain ⟨h1, h2, h3, h4⟩ := runPairs_spec d0 st (sortPairs pairs)
  rw [execute]
  by_cases hb : (runPairs d0 st (sortPairs pairs)).2.2 = true
  · rw [if_pos hb]
    refine ⟨⟨fun _ => by rw [← h1]; exact hb, fun _ => rfl⟩, fun h => by cases h⟩
  · rw [if_neg hb]
    have hbf : (runPairs d0 st (sortPairs pairs)).2.2 = false := by
      cases hx : (runPairs d0 st (sortPairs pairs)).2.2
      · rfl
      · exact absurd hx hb
    constructor
    · constructor
      · intro h; cases h
      · intro h
        rw [← h1] at h
        exact absurd h hb
    · intro _
      refine ⟨?_, (runPairs d0 st (sortPairs pairs)).2.1.length, h3, ?_⟩
      · dsimp only
        exact h2 hbf
      · dsimp only
        omega

theorem c7_execute_atomic_witness :
    ((execute (0 : Nat) ⟨[10, 20], [0, 1], 2, 0⟩
        [(1, fun _ => none), (0, fun x => some (x + 1))]).2 = false ∧
      (execute (0 : Nat) ⟨[10, 20], [0, 1], 2, 0⟩
        [(1, fun _ => none), (0, fun x => some (x + 1))]).1.cur = [0, 1] ∧
      ∃ k, (execute (0 : Nat) ⟨[10, 20], [0, 1], 2, 0⟩
          [(1, fun _ => none), (0, fun x => some (x + 1))]).1.allocs = 2 + k ∧
        (execute (0 : Nat) ⟨[10, 20], [0, 1], 2, 0⟩
          [(1, fun _ => none), (0, fun x => some (x + 1))]).1.deallocs = 0 + k) ∧
    (execute (0 : Nat) ⟨[10, 20], [0, 1], 2, 0⟩
        [(0, fun x => some (x + 1))]).2 = true := by
  constructor
  · have h := (c7_execute_atomic (0 : Nat) ⟨[10, 20], [0, 1], 2, 0⟩
      [(1, fun _ => none), (0, fun x => some (x + 1))]).2 (by rfl)
    exact ⟨by rfl, h.1, h.2⟩
  · exact (c7_execute_atomic (0 : Nat) ⟨[10, 20], [0, 1], 2, 0⟩
      [(0, fun x => some (x + 1))]).1.mpr (by rfl)


end Tx
